import Mathlib

/-!
Verification of the thor-cluster velocity-grid cluster search engine.

This file is a shallow embedding, in Lean 4, of the core of the
thor-cluster repository (Rust).  Every definition is translated from a
specific source function, named in its doc comment:

* `src/points.rs` — point value types;
* `src/gridsearch.rs` — `apply_velocity`, `work_chunk_size`,
  `cluster_grid_search` (serial and parallel branches);
* `src/dbscan.rs` — the DBSCAN primitive (`dbscan`, its expansion loop);
* `src/hotspot2d.rs` — `quantize`, `hist2d`, `label_cluster_map`,
  `merge_cluster_labels`, `find_clusters_hotspot2d`;
* `src/lib.rs` — `find_clusters` (the façade) and the result assembler
  inside `grid_search_py`;
* `src/dbscan/float32_kdtree.rs`, `src/dbscan/rstar.rs` — the `u16`
  index representation of the spatial-index backends.

Modelling conventions:

* `f64`/`f32` values are modelled as exact rationals (`ℚ`).  Floating
  point rounding is out of scope; all statements about coordinates are
  over the exact field.
* The spatial indexes (kiddo k-d trees, the rstar R*-tree) are external
  crates.  Their semantic contract — "return the indices of the stored
  points within the given radius of the query, in unspecified order" —
  is abstracted as a neighbour oracle `N : Nat → List Nat` giving, for
  the point stored at index `i`, the indices of its neighbours.  All
  range queries made by `dbscan` are at stored points, so this fully
  captures the interface.  The exact squared-Euclidean instance
  `exactNeighbors` is used as the executable witness oracle.
* Rust `HashMap` iteration order is unspecified; definitions use a
  canonical first-insertion order and theorems that depend on the order
  are stated for an arbitrary permutation of that association list.
* Machine integers: the `u16` index cast `i as u16` is modelled as
  `i % 65536`; the cluster counter of `dbscan` is a `u16` in the source,
  so its increment `cluster_idx += 1` is modelled as `(k + 1) % 65536`
  (release-mode wrapping; a debug build would panic on the overflow
  instead).
-/

namespace ThorCluster

/-- `XYPoint` from `src/points.rs`: a point in 2D space. -/
structure XYPoint (α : Type) where
  x : α
  y : α
deriving Repr, DecidableEq

/-- `XYTPoint` from `src/points.rs`: a point in 2D space with a time. -/
structure XYTPoint (α : Type) where
  x : α
  y : α
  t : α
deriving Repr, DecidableEq

/-- `apply_velocity` from `src/gridsearch.rs`: subtract the candidate
linear motion `(vx, vy)` from each observation, producing the planar
point `(x - vx*t, y - vy*t)`, in input order. -/
def applyVelocity (vx vy : ℚ) (points : List (XYTPoint ℚ)) : List (XYPoint ℚ) :=
  points.map fun p => ⟨p.x - vx * p.t, p.y - vy * p.t⟩

/-- `GridSearchResult` from `src/gridsearch.rs`. -/
structure GridSearchResult where
  vx : ℚ
  vy : ℚ
  clusterLabels : List Int
deriving Repr, DecidableEq

/-- `work_chunk_size` from `src/gridsearch.rs`: the ceiling of
`n_vxs / n_threads`, computed the way the source does it. -/
def workChunkSize (nThreads nVxs : Nat) : Nat :=
  let chunkSize := nVxs / nThreads
  if nVxs % nThreads = 0 then chunkSize else chunkSize + 1

/-- Rust `slice::chunks`: split a list into contiguous chunks of the
given size, the last one possibly shorter.  (`chunks(0)` panics in
Rust; that case is modelled as no chunks and is never reached by the
claims below.) -/
def listChunks {α : Type} (size : Nat) : List α → List (List α)
  | [] => []
  | x :: xs =>
    if size = 0 then []
    else (x :: xs).take size :: listChunks size ((x :: xs).drop size)
termination_by l => l.length
decreasing_by
  simp only [List.length_drop, List.length_cons]
  omega

/-- Serial branch `cluster_grid_search_serial` from `src/gridsearch.rs`:
row-major iteration over the `vxs × vys` product.  The per-point-set
clustering call `find_clusters(&xy_points, eps, min_cluster_size, &alg)`
is abstracted as the closure `cluster`. -/
def clusterGridSearchSerial (cluster : List (XYPoint ℚ) → List Int)
    (points : List (XYTPoint ℚ)) (vxs vys : List ℚ) : List GridSearchResult :=
  vxs.flatMap fun vx => vys.map fun vy =>
    ⟨vx, vy, cluster (applyVelocity vx vy points)⟩

/-- Parallel branch of `cluster_grid_search` from `src/gridsearch.rs`:
`vxs` is split into chunks of size `work_chunk_size n_threads |vxs|`,
and the loop `for _i in 1..n_threads` hands one chunk to each of the
`n_threads - 1` spawned workers (breaking early if no chunks remain).
Each worker emits its results in row-major order.  This definition is
the concatenation of the workers' emissions; the mpsc channel delivers
some interleaving of them, i.e. a permutation of this list. -/
def clusterGridSearchParallelSent (cluster : List (XYPoint ℚ) → List Int)
    (points : List (XYTPoint ℚ)) (vxs vys : List ℚ) (nThreads : Nat) :
    List GridSearchResult :=
  let chunks := listChunks (workChunkSize nThreads vxs.length) vxs
  (chunks.take (nThreads - 1)).flatMap fun chunk =>
    chunk.flatMap fun vx => vys.map fun vy =>
      ⟨vx, vy, cluster (applyVelocity vx vy points)⟩

/-- `cluster_grid_search` from `src/gridsearch.rs`: dispatch between the
serial and parallel branches on `n_threads == 1`. -/
def clusterGridSearch (cluster : List (XYPoint ℚ) → List Int)
    (points : List (XYTPoint ℚ)) (vxs vys : List ℚ) (nThreads : Nat) :
    List GridSearchResult :=
  if nThreads = 1 then clusterGridSearchSerial cluster points vxs vys
  else clusterGridSearchParallelSent cluster points vxs vys nThreads

/-- The Rust cast `i as u16` applied to a point index, as done when
storing points in `PointTree::from_points` (`src/dbscan/float32_kdtree.rs`)
and `Tree::from_points` (`src/dbscan/rstar.rs`), and when reading the
index back with `n.item as usize`. -/
def u16Cast (i : Nat) : Nat := i % 65536

/-- Index stored by the float32 k-d tree backend
(`src/dbscan/float32_kdtree.rs`, `from_points`: `tree.add(…, idx as u16)`). -/
def float32TreeStoredIdx (i : Nat) : Nat := u16Cast i

/-- Index stored by the R*-tree backend (`src/dbscan/rstar.rs`,
`from_points`: `point_to_tree_entry(p, i as u16)`). -/
def rstarStoredIdx (i : Nat) : Nat := u16Cast i

/-- `DBScanClassification` from `src/dbscan.rs`.  The cluster index
payload is a `u16` in the source; it is carried here as a `Nat`, and
`dbscanOuter` only ever stores values of the wrapped (mod `2^16`)
counter. -/
inductive DBScanClassification where
  | undefined
  | noise
  | border (k : Nat)
  | core (k : Nat)
deriving Repr, DecidableEq

/-- A label the DBSCAN loops may still rewrite: `Undefined` or `Noise`.
Only used in proofs (it is the first component of the expansion loop's
termination measure). -/
def DBScanClassification.isOpenLabel : DBScanClassification → Bool
  | .undefined => true
  | .noise => true
  | _ => false

/-- Number of `Undefined`/`Noise` cells of a label array: the part of the
termination measure of the DBSCAN expansion loop that a push decreases. -/
def countActive (L : List DBScanClassification) : Nat :=
  L.countP DBScanClassification.isOpenLabel

/-- The body of the DBSCAN expansion loop
`while let Some(neighbor) = queue.pop()` (`src/dbscan.rs`, inside
`dbscan`), for one popped neighbour index `j`: the updated label array
and the list of indices pushed onto the work stack (topmost first).
`N j` stands for `tree.within_unsorted(&[points[j].x, points[j].y], eps, …)`.
Branches, in source order:
 * `Noise` → relabel `Border(k)`, then fall through to the neighbourhood
   query (the source has no `continue` on this branch); if the
   neighbourhood reaches `min_cluster_size` the label is overwritten
   with `Core(k)` and the neighbours are pushed;
 * any other already-set label → `continue`;
 * `Undefined` → query; `Core(k)` plus a push when dense, otherwise the
   label is left unchanged (the source has no `else` arm writing
   `Border`).
The leading bounds test mirrors the `labels[neighbor_idx]` access: in the
source the index is always in range because the tree stores only indices
of the input points. -/
def procOne (N : Nat → List Nat) (minSize k : Nat)
    (L : List DBScanClassification) (j : Nat) :
    List DBScanClassification × List Nat :=
  if L.length ≤ j then (L, [])
  else if L.getD j .undefined = .noise then
    (if minSize ≤ (N j).length then ((L.set j (.border k)).set j (.core k), (N j).reverse)
     else (L.set j (.border k), ([] : List Nat)))
  else if L.getD j .undefined ≠ .undefined then (L, [])
  else if minSize ≤ (N j).length then (L.set j (.core k), (N j).reverse)
  else (L, [])

/-- The DBSCAN expansion loop itself (`src/dbscan.rs`, `dbscan`, the
`while let` loop).  The stack holds the pending neighbour indices,
topmost first: the Rust `Vec` queue is popped at its end, and
`queue.extend(ns)` makes the last element of `ns` the first popped, so a
push prepends `ns.reverse` — which is what `procOne` returns. -/
def expandGo (N : Nat → List Nat) (minSize k : Nat) :
    List DBScanClassification → List Nat → List DBScanClassification
  | L, [] => L
  | L, j :: t =>
    expandGo N minSize k (procOne N minSize k L j).1 ((procOne N minSize k L j).2 ++ t)
termination_by L s => (countActive L, s.length)
decreasing_by
  have hset : ∀ (M : List DBScanClassification) (j : Nat), j < M.length →
      ∀ (v : DBScanClassification), v.isOpenLabel = false →
      (M.getD j .undefined).isOpenLabel = true →
      countActive (M.set j v) < countActive M := by
    intro M j hj v hv hcur
    have hgd : M.getD j .undefined = M[j] := by
      simp [List.getD_eq_getElem?_getD, List.getElem?_eq_getElem hj]
    rw [hgd] at hcur
    unfold countActive
    rw [List.set_eq_take_cons_drop _ hj]
    conv_rhs => rw [show M = M.take j ++ M.drop j from (List.take_append_drop j M).symm]
    rw [List.drop_eq_getElem_cons hj]
    rw [List.countP_append, List.countP_append, List.countP_cons, List.countP_cons]
    simp [hcur, hv]
  have key : countActive (procOne N minSize k L j).1 < countActive L ∨
      ((procOne N minSize k L j).1 = L ∧ (procOne N minSize k L j).2 = []) := by
    unfold procOne
    split_ifs with h0 h1 h2 h3 h4
    · right; exact ⟨rfl, rfl⟩
    · left
      rw [List.set_set]
      exact hset L j (by omega) _ rfl (by rw [h1]; rfl)
    · left
      exact hset L j (by omega) _ rfl (by rw [h1]; rfl)
    · right; exact ⟨rfl, rfl⟩
    · left
      push_neg at h3
      exact hset L j (by omega) _ rfl (by rw [h3]; rfl)
    · right; exact ⟨rfl, rfl⟩
  rcases key with h | ⟨h1, h2⟩
  · exact Prod.Lex.left _ _ h
  · rw [h1, h2]
    exact Prod.Lex.right _ (by simp)

/-- The outer scan `for (i, point) in points.iter().enumerate()` of
`dbscan` (`src/dbscan.rs`): skip already-labelled points; mark sparse
points `Noise`; otherwise increment the `u16` cluster counter
(`cluster_idx += 1`, i.e. `(k + 1) % 65536` with release-mode
wrapping), label the point `Core`, and run the expansion loop seeded
with the point's neighbours.  Returns the final label array together
with the final counter value. -/
def dbscanOuter (N : Nat → List Nat) (minSize n : Nat) :
    Nat → Nat → List DBScanClassification → List DBScanClassification × Nat
  | i, k, L =>
    if i < n then
      if L.getD i .undefined ≠ .undefined then dbscanOuter N minSize n (i + 1) k L
      else if (N i).length < minSize then
        dbscanOuter N minSize n (i + 1) k (L.set i .noise)
      else
        dbscanOuter N minSize n (i + 1) ((k + 1) % 65536)
          (expandGo N minSize ((k + 1) % 65536) (L.set i (.core ((k + 1) % 65536)))
            ((N i).reverse))
    else (L, k)
termination_by i _ _ => n - i
decreasing_by all_goals omega

/-- The final mapping of `dbscan` (`src/dbscan.rs`):
`Noise`/`Undefined` to `-1`, `Border(k)`/`Core(k)` to `k`. -/
def classificationToLabel : DBScanClassification → Int
  | .noise => -1
  | .border k => (k : Int)
  | .core k => (k : Int)
  | .undefined => -1

/-- `dbscan` (`src/dbscan.rs`) over `n` points, with the spatial index
abstracted as the neighbour oracle `N`. -/
def dbscanCore (N : Nat → List Nat) (minSize n : Nat) : List Int :=
  (dbscanOuter N minSize n 0 0 (List.replicate n .undefined)).1.map classificationToLabel

/-- Squared Euclidean distance (`kiddo::distance::squared_euclidean`). -/
def sqDist (p q : XYPoint ℚ) : ℚ :=
  (p.x - q.x) * (p.x - q.x) + (p.y - q.y) * (p.y - q.y)

/-- The semantic contract of a range query (§4.1 of the spec, kiddo's
`within_unsorted` with the squared-Euclidean metric): the indices of the
stored points within the radius of the query point, here in index
order.  The source's query order is unspecified; theorems that depend on
it are quantified over permutations. -/
def exactNeighbors (points : List (XYPoint ℚ)) (eps : ℚ) (i : Nat) : List Nat :=
  (List.range points.length).filter fun j =>
    decide (sqDist (points.getD i ⟨0, 0⟩) (points.getD j ⟨0, 0⟩) ≤ eps)

/-- The same query as answered by a tree that stored each index `i` as
the 16-bit value `i as u16` (`find_clusters_dbscan` in `src/dbscan.rs`,
`from_points` in `src/dbscan/float32_kdtree.rs` and
`src/dbscan/rstar.rs`): the returned item ids are the truncated
indices. -/
def truncNeighbors (points : List (XYPoint ℚ)) (eps : ℚ) (i : Nat) : List Nat :=
  (exactNeighbors points eps i).map u16Cast

/-- `find_clusters_dbscan` from `src/dbscan.rs`: build the `u16`-indexed
tree over the points and run `dbscan`.  Floating-point (`f32`)
coordinates are modelled as exact rationals. -/
def findClustersDbscan (points : List (XYPoint ℚ)) (eps : ℚ) (minSize : Nat) : List Int :=
  dbscanCore (truncNeighbors points eps) minSize points.length

/-- `f64::round` (used by `quantize` in `src/hotspot2d.rs`): round to the
nearest integer, ties away from zero. -/
def rustRound (q : ℚ) : ℤ :=
  if 0 ≤ q then ⌊q + 1 / 2⌋ else -⌊-q + 1 / 2⌋

/-- `quantize` from `src/hotspot2d.rs`: map each point to its integer
cell `(round(x/quantum), round(y/quantum))`. -/
def quantize (points : List (XYPoint ℚ)) (quantum : ℚ) : List (XYPoint ℤ) :=
  points.map fun p => ⟨rustRound (p.x / quantum), rustRound (p.y / quantum)⟩

/-- One step of `hist2d`'s `map.entry(*p).or_insert_with(Vec::new).push(i)`
(`src/hotspot2d.rs`) on an association-list model of the `HashMap`:
append `i` to the cell's list, or add the cell at the end. -/
def hist2dInsert : List (XYPoint ℤ × List Nat) → XYPoint ℤ → Nat →
    List (XYPoint ℤ × List Nat)
  | [], p, i => [(p, [i])]
  | (q, v) :: rest, p, i =>
    if q = p then (q, v ++ [i]) :: rest else (q, v) :: hist2dInsert rest p i

/-- The loop of `hist2d` (`src/hotspot2d.rs`), carrying the running index. -/
def hist2dGo : List (XYPoint ℤ × List Nat) → Nat → List (XYPoint ℤ) →
    List (XYPoint ℤ × List Nat)
  | m, _, [] => m
  | m, i, p :: ps => hist2dGo (hist2dInsert m p i) (i + 1) ps

/-- `hist2d` from `src/hotspot2d.rs`: cell → indices of the points in it.
The `HashMap` is modelled as an association list in first-insertion
order; Rust's iteration order is unspecified, so theorems that depend on
the entry order are quantified over permutations of this list. -/
def hist2d (qpts : List (XYPoint ℤ)) : List (XYPoint ℤ × List Nat) :=
  hist2dGo [] 0 qpts

/-- The label-assignment loop of `label_cluster_map` (`src/hotspot2d.rs`):
walk the cluster map with a counter starting at 0 and give each cell
holding at least `min_size` points the next label. -/
def buildLabelMapGo (minSize : Nat) : Nat → List (XYPoint ℤ × List Nat) →
    List (XYPoint ℤ × Nat)
  | _, [] => []
  | label, (p, v) :: rest =>
    if minSize ≤ v.length then (p, label) :: buildLabelMapGo minSize (label + 1) rest
    else buildLabelMapGo minSize label rest

/-- Association-list lookup (the `label_map.get(p)` of
`label_cluster_map`). -/
def lookupCell : List (XYPoint ℤ × Nat) → XYPoint ℤ → Option Nat
  | [], _ => none
  | (q, g) :: rest, p => if q = p then some g else lookupCell rest p

/-- `label_cluster_map` from `src/hotspot2d.rs`: each point gets its
cell's label, or `-1` when its cell seeded no cluster.  Note the labels
start at 0. -/
def labelClusterMap (points : List (XYPoint ℤ))
    (clusterMap : List (XYPoint ℤ × List Nat)) (minSize : Nat) : List Int :=
  points.map fun p =>
    match lookupCell (buildLabelMapGo minSize 0 clusterMap) p with
    | some g => (g : Int)
    | none => -1

/-- Association-list lookup into the cell histogram (the content model
of `HashMap::get` on `hist2d`'s map). -/
def lookupCellList : List (XYPoint ℤ × List Nat) → XYPoint ℤ → Option (List Nat)
  | [], _ => none
  | (q, v) :: rest, c => if q = c then some v else lookupCellList rest c

/-- Number of points quantized to the cell `c` (the spec's "its cell
holds at least `min_weight` points"). -/
def countCell (qpts : List (XYPoint ℤ)) (c : XYPoint ℤ) : Nat :=
  qpts.countP fun d => decide (d = c)

/-- `merge_cluster_labels` from `src/hotspot2d.rs`: per point, the first
label of `l1, l2, l3, l4` that is not `-1`, else `-1`. -/
def mergeClusterLabels (l1 l2 l3 l4 : List Int) : List Int :=
  (List.range l1.length).map fun i =>
    if l1.getD i 0 ≠ -1 then l1.getD i 0
    else if l2.getD i 0 ≠ -1 then l2.getD i 0
    else if l3.getD i 0 ≠ -1 then l3.getD i 0
    else if l4.getD i 0 ≠ -1 then l4.getD i 0
    else -1

/-- The shifted copies of the input built inside `find_clusters_hotspot2d`
(`src/hotspot2d.rs`). -/
def shiftPoints (dx dy : ℚ) (points : List (XYPoint ℚ)) : List (XYPoint ℚ) :=
  points.map fun p => ⟨p.x + dx, p.y + dy⟩

/-- `find_clusters_hotspot2d` from `src/hotspot2d.rs`: quantize, build the
cell histogram and label, on the input and on its three shifted copies
`(+eps/2, 0)`, `(0, +eps/2)`, `(+eps/2, +eps/2)`, then merge the four
label vectors. -/
def findClustersHotspot2d (points : List (XYPoint ℚ)) (eps : ℚ) (minSize : Nat) :
    List Int :=
  mergeClusterLabels
    (labelClusterMap (quantize points eps) (hist2d (quantize points eps)) minSize)
    (labelClusterMap (quantize (shiftPoints (eps / 2) 0 points) eps)
      (hist2d (quantize (shiftPoints (eps / 2) 0 points) eps)) minSize)
    (labelClusterMap (quantize (shiftPoints 0 (eps / 2) points) eps)
      (hist2d (quantize (shiftPoints 0 (eps / 2) points) eps)) minSize)
    (labelClusterMap (quantize (shiftPoints (eps / 2) (eps / 2) points) eps)
      (hist2d (quantize (shiftPoints (eps / 2) (eps / 2) points) eps)) minSize)

/-- `ClusterAlgorithm` from `src/lib.rs`. -/
inductive ClusterAlgorithm where
  | DBSCAN
  | Hotspot2D
  | DbscanRStar
  | DbscanFixed16
deriving Repr, DecidableEq

/-- `find_clusters` from `src/lib.rs` (the clustering façade).  The three
DBSCAN tags differ only in which spatial-index backend answers the range
queries (float32 k-d tree, R*-tree, fixed-point k-d tree — all external
crates); per §4.1 each returns the indices of the stored points within
the radius under its metric, in unspecified order, abstracted here as
the oracle `treeNeighbors`. -/
def findClusters (treeNeighbors : Nat → List Nat) (points : List (XYPoint ℚ))
    (eps : ℚ) (minSize : Nat) : ClusterAlgorithm → List Int
  | .Hotspot2D => findClustersHotspot2d points eps minSize
  | .DBSCAN => dbscanCore treeNeighbors minSize points.length
  | .DbscanRStar => dbscanCore treeNeighbors minSize points.length
  | .DbscanFixed16 => dbscanCore treeNeighbors minSize points.length

/-- Number of distinct positive labels of a label vector (the `K` of the
spec's label-shape invariant). -/
def numDistinctPos (out : List Int) : Nat :=
  (out.filter fun l => decide (0 < l)).dedup.length

/-- A row of the cluster summary table built by `grid_search_py`
(`src/lib.rs`): `cluster_id, vx, vy, arc_length`. -/
structure ClusterRow where
  clusterId : Nat
  vx : ℚ
  vy : ℚ
  arcLength : ℚ
deriving Repr, DecidableEq

/-- A row of the cluster-members table built by `grid_search_py`
(`src/lib.rs`): the global cluster id and the observation's index (the
emitted `obs_id` column is `ids[obsIdx]`; see `memberObsIds`). -/
structure MemberRow where
  clusterId : Nat
  obsIdx : Nat
deriving Repr, DecidableEq

/-- Association-list overwrite, the content model of `HashMap::insert`. -/
def setEntry : List (Nat × ℚ) → Nat → ℚ → List (Nat × ℚ)
  | [], g, v => [(g, v)]
  | (g0, v0) :: rest, g, v =>
    if g0 = g then (g, v) :: rest else (g0, v0) :: setEntry rest g v

/-- Association-list lookup, the content model of `HashMap::get`. -/
def lookupNat : List (Nat × ℚ) → Nat → Option ℚ
  | [], _ => none
  | (g0, v0) :: rest, g => if g0 = g then some v0 else lookupNat rest g

/-- Association-list lookup for the per-result `label_id_map`. -/
def lookupLabel : List (Int × Nat) → Int → Option Nat
  | [], _ => none
  | (l0, g0) :: rest, l => if l0 = l then some g0 else lookupLabel rest l

/-- The `cluster_arc_starts` update of `grid_search_py` (`src/lib.rs`):
keep the minimum `dt` seen for the cluster. -/
def asmMinUpdate (m : List (Nat × ℚ)) (gid : Nat) (dt : ℚ) : List (Nat × ℚ) :=
  match lookupNat m gid with
  | none => setEntry m gid dt
  | some v => if dt < v then setEntry m gid dt else m

/-- The `cluster_arc_ends` update of `grid_search_py` (`src/lib.rs`):
keep the maximum `dt` seen for the cluster. -/
def asmMaxUpdate (m : List (Nat × ℚ)) (gid : Nat) (dt : ℚ) : List (Nat × ℚ) :=
  match lookupNat m gid with
  | none => setEntry m gid dt
  | some v => if v < dt then setEntry m gid dt else m

/-- The assembler state while `grid_search_py` (`src/lib.rs`) processes
one `GridSearchResult`: the global `cluster_id` counter, the per-result
`label_id_map`, `cluster_arc_starts`/`cluster_arc_ends`, the per-result
`cluster_ids` vector, and the members table built so far. -/
structure AsmState where
  g : Nat
  labelMap : List (Int × Nat)
  arcStarts : List (Nat × ℚ)
  arcEnds : List (Nat × ℚ)
  clusterIds : List Nat
  members : List MemberRow
deriving Repr, DecidableEq

/-- The body of `for (i, label) in result.cluster_labels.iter().enumerate()`
in `grid_search_py` (`src/lib.rs`): skip negative labels; give a new
local label the next global id (recording a summary row for it); emit
the membership row; update the arc bounds with `dts[i]`. -/
def asmStep (dts : List ℚ) (st : AsmState) (i : Nat) (label : Int) : AsmState :=
  if label < 0 then st
  else
    match lookupLabel st.labelMap label with
    | some gid =>
      { st with
        members := st.members ++ [⟨gid, i⟩]
        arcStarts := asmMinUpdate st.arcStarts gid (dts.getD i 0)
        arcEnds := asmMaxUpdate st.arcEnds gid (dts.getD i 0) }
    | none =>
      { g := st.g + 1
        labelMap := st.labelMap ++ [(label, st.g + 1)]
        arcStarts := asmMinUpdate st.arcStarts (st.g + 1) (dts.getD i 0)
        arcEnds := asmMaxUpdate st.arcEnds (st.g + 1) (dts.getD i 0)
        clusterIds := st.clusterIds ++ [st.g + 1]
        members := st.members ++ [⟨st.g + 1, i⟩] }

/-- The label loop of `grid_search_py` over one result's label vector. -/
def processLabels (dts : List ℚ) : AsmState → Nat → List Int → AsmState
  | st, _, [] => st
  | st, i, l :: ls => processLabels dts (asmStep dts st i l) (i + 1) ls

/-- Processing of one `GridSearchResult` by `grid_search_py`
(`src/lib.rs`): run the label loop from a fresh per-result state (the
global counter and the members table carry over), then emit one summary
row per new cluster id, in creation order, with
`arc_length = cluster_arc_ends[id] - cluster_arc_starts[id]`. -/
def processResult (dts : List ℚ) (g0 : Nat) (members0 : List MemberRow)
    (r : GridSearchResult) : Nat × List ClusterRow × List MemberRow :=
  let st := processLabels dts ⟨g0, [], [], [], [], members0⟩ 0 r.clusterLabels
  (st.g,
   st.clusterIds.map fun gid =>
     ⟨gid, r.vx, r.vy, (lookupNat st.arcEnds gid).getD 0 - (lookupNat st.arcStarts gid).getD 0⟩,
   st.members)

/-- The result loop of `grid_search_py` (`src/lib.rs`). -/
def assembleGo (dts : List ℚ) :
    Nat → List ClusterRow → List MemberRow → List GridSearchResult →
    Nat × List ClusterRow × List MemberRow
  | g, rows, mems, [] => (g, rows, mems)
  | g, rows, mems, r :: rs =>
    assembleGo dts (processResult dts g mems r).1
      (rows ++ (processResult dts g mems r).2.1) (processResult dts g mems r).2.2 rs

/-- The result assembler of `grid_search_py` (`src/lib.rs`, the loop
`for result in results.into_iter()`): the final global counter, the
cluster summary table and the cluster members table. -/
def assemble (dts : List ℚ) (results : List GridSearchResult) :
    Nat × List ClusterRow × List MemberRow :=
  assembleGo dts 0 [] [] results

/-- The `obs_id` column of the members table: `ids.value(i)` per row. -/
def memberObsIds (ids : List String) (mems : List MemberRow) : List (Nat × String) :=
  mems.map fun m => (m.clusterId, ids.getD m.obsIdx "")

/-- `grid_search_py` from `src/lib.rs`, input handling and dispatch: the
only validation before the search is dispatched is the length test
`xs.len() != ys.len() || xs.len() != dts.len()`; then the observations
are zipped, the grid search runs, and the assembler builds the two
tables.  The per-point-set clustering closure
`find_clusters(&xy_points, eps, min_cluster_size, &alg)` is abstracted
as `clusterAt eps minSize`; `ids` only feeds the `obs_id` column (see
`memberObsIds`) and its length is never validated. -/
def gridSearchPy (clusterAt : ℚ → Nat → List (XYPoint ℚ) → List Int)
    (xs ys dts vxs vys : List ℚ) (eps : ℚ) (minSize nThreads : Nat) :
    Except String (List ClusterRow × List MemberRow) :=
  if xs.length ≠ ys.length ∨ xs.length ≠ dts.length then
    Except.error "x y, and dts arrays must be the same length"
  else
    Except.ok ((assemble dts
      (clusterGridSearch (clusterAt eps minSize)
        ((List.range xs.length).map fun i =>
          XYTPoint.mk (xs.getD i 0) (ys.getD i 0) (dts.getD i 0))
        vxs vys nThreads)).2)

/-- How one cell of the label array may change across a DBSCAN expansion
with cluster index `k`: it is untouched, or it was `Noise`/`Undefined`
and is now `Border k`/`Core k`.  (Spec-side predicate used to state the
invariants of the expansion loop.) -/
def labelEvolved (k : Nat) (old new : DBScanClassification) : Prop :=
  new = old ∨
    ((old = .noise ∨ old = .undefined) ∧ (new = .border k ∨ new = .core k))

/-- Every `Noise` cell has a sparse neighbourhood.  This is the run-time
invariant of `dbscan` that keeps a `Noise` point, once popped from the
work list, from being promoted to `Core` by the fall-through query. -/
def noiseSparse (N : Nat → List Nat) (minSize : Nat)
    (L : List DBScanClassification) : Prop :=
  ∀ j, L.getD j .undefined = .noise → (N j).length < minSize

/-- Largest element of a list of rationals (0 for the empty list); used
to state the arc-length property. -/
def qListMax : List ℚ → ℚ
  | [] => 0
  | x :: xs => xs.foldl max x

/-- Smallest element of a list of rationals (0 for the empty list). -/
def qListMin : List ℚ → ℚ
  | [] => 0
  | x :: xs => xs.foldl min x

/-- The `dts` values of the member rows recorded for global cluster id
`gid` (spec-side: the "t values of exactly the observations listed as
that cluster's members"). -/
def memberDts (dts : List ℚ) (mems : List MemberRow) (gid : Nat) : List ℚ :=
  (mems.filter fun m => m.clusterId == gid).map fun m => dts.getD m.obsIdx 0

/-! Sanity anchors: the values of `work_chunk_size` listed in the
source's `test_work_chunk_size`, the `test_find_clusters_near_miss`
label vector, and the `test_grid_search` label vector at `(0, 0)`. -/

example :
    workChunkSize 2 10 = 5 ∧ workChunkSize 2 11 = 6 ∧ workChunkSize 2 12 = 6 ∧
    workChunkSize 2 13 = 7 ∧ workChunkSize 3 10 = 4 ∧ workChunkSize 3 13 = 5 ∧
    workChunkSize 3 16 = 6 := by decide

example : findClustersHotspot2d
    [⟨1, 0⟩, ⟨1, 0⟩, ⟨1, 0⟩, ⟨1, 1⟩, ⟨2, 0⟩, ⟨2, 0⟩, ⟨2, 0⟩, ⟨2, 0⟩] 1 4 =
    [-1, -1, -1, -1, 0, 0, 0, 0] := by
  have hq1 : quantize [⟨1, 0⟩, ⟨1, 0⟩, ⟨1, 0⟩, ⟨1, 1⟩, ⟨2, 0⟩, ⟨2, 0⟩, ⟨2, 0⟩, ⟨2, 0⟩] 1 =
      [⟨1, 0⟩, ⟨1, 0⟩, ⟨1, 0⟩, ⟨1, 1⟩, ⟨2, 0⟩, ⟨2, 0⟩, ⟨2, 0⟩, ⟨2, 0⟩] := by
    norm_num [quantize, rustRound]
  have hq2 : quantize (shiftPoints (1 / 2) 0
        [⟨1, 0⟩, ⟨1, 0⟩, ⟨1, 0⟩, ⟨1, 1⟩, ⟨2, 0⟩, ⟨2, 0⟩, ⟨2, 0⟩, ⟨2, 0⟩]) 1 =
      [⟨2, 0⟩, ⟨2, 0⟩, ⟨2, 0⟩, ⟨2, 1⟩, ⟨3, 0⟩, ⟨3, 0⟩, ⟨3, 0⟩, ⟨3, 0⟩] := by
    norm_num [quantize, shiftPoints, rustRound]
  have hq3 : quantize (shiftPoints 0 (1 / 2)
        [⟨1, 0⟩, ⟨1, 0⟩, ⟨1, 0⟩, ⟨1, 1⟩, ⟨2, 0⟩, ⟨2, 0⟩, ⟨2, 0⟩, ⟨2, 0⟩]) 1 =
      [⟨1, 1⟩, ⟨1, 1⟩, ⟨1, 1⟩, ⟨1, 2⟩, ⟨2, 1⟩, ⟨2, 1⟩, ⟨2, 1⟩, ⟨2, 1⟩] := by
    norm_num [quantize, shiftPoints, rustRound]
  have hq4 : quantize (shiftPoints (1 / 2) (1 / 2)
        [⟨1, 0⟩, ⟨1, 0⟩, ⟨1, 0⟩, ⟨1, 1⟩, ⟨2, 0⟩, ⟨2, 0⟩, ⟨2, 0⟩, ⟨2, 0⟩]) 1 =
      [⟨2, 1⟩, ⟨2, 1⟩, ⟨2, 1⟩, ⟨2, 2⟩, ⟨3, 1⟩, ⟨3, 1⟩, ⟨3, 1⟩, ⟨3, 1⟩] := by
    norm_num [quantize, shiftPoints, rustRound]
  rw [findClustersHotspot2d, hq1, hq2, hq3, hq4]
  decide

example : dbscanCore
    (exactNeighbors [⟨0, 0⟩, ⟨0, 0⟩, ⟨0, 0⟩, ⟨0, 0⟩, ⟨10, 10⟩, ⟨10, 101 / 10⟩] (1 / 2)) 4 6 =
    [1, 1, 1, 1, -1, -1] := by
  have h0 : ∀ i < 4, exactNeighbors
      [⟨0, 0⟩, ⟨0, 0⟩, ⟨0, 0⟩, ⟨0, 0⟩, ⟨10, 10⟩, ⟨10, 101 / 10⟩] ((2 : ℚ)⁻¹) i = [0, 1, 2, 3] := by
    intro i hi
    interval_cases i <;> norm_num [exactNeighbors, sqDist, List.range_succ]
  have h4 : exactNeighbors
      [⟨0, 0⟩, ⟨0, 0⟩, ⟨0, 0⟩, ⟨0, 0⟩, ⟨10, 10⟩, ⟨10, 101 / 10⟩] ((2 : ℚ)⁻¹) 4 = [4, 5] := by
    norm_num [exactNeighbors, sqDist, List.range_succ]
  have h5 : exactNeighbors
      [⟨0, 0⟩, ⟨0, 0⟩, ⟨0, 0⟩, ⟨0, 0⟩, ⟨10, 10⟩, ⟨10, 101 / 10⟩] ((2 : ℚ)⁻¹) 5 = [4, 5] := by
    norm_num [exactNeighbors, sqDist, List.range_succ]
  simp [dbscanCore, dbscanOuter, expandGo, procOne, classificationToLabel,
    h0 0 (by norm_num), h0 1 (by norm_num), h0 2 (by norm_num), h0 3 (by norm_num), h4, h5]

/-- C9: velocity reprojection produces `(x - vx*t, y - vy*t)` for each
observation, in input order (same length, `i`-th output from the `i`-th
observation), and an object moving at exactly `(vx, vy)` reprojects to
the single stationary point `(x0, y0)`.  Arithmetic is modelled exactly
(the source computes in `f64`). -/
theorem applyVelocity_reprojection (vx vy : ℚ) (points : List (XYTPoint ℚ)) :
    (applyVelocity vx vy points).length = points.length ∧
    (∀ i, i < points.length →
      (applyVelocity vx vy points).getD i ⟨0, 0⟩ =
        ⟨(points.getD i ⟨0, 0, 0⟩).x - vx * (points.getD i ⟨0, 0, 0⟩).t,
         (points.getD i ⟨0, 0, 0⟩).y - vy * (points.getD i ⟨0, 0, 0⟩).t⟩) ∧
    (∀ x0 y0 : ℚ, (∀ p ∈ points, p.x = x0 + vx * p.t ∧ p.y = y0 + vy * p.t) →
      ∀ q ∈ applyVelocity vx vy points, q = ⟨x0, y0⟩) := by
  refine ⟨by simp [applyVelocity], ?_, ?_⟩
  · intro i hi
    simp [applyVelocity, List.getD_eq_getElem?_getD, List.getElem?_map,
      List.getElem?_eq_getElem hi]
  · rintro x0 y0 h q hq
    obtain ⟨p, hp, rfl⟩ := List.mem_map.1 hq
    obtain ⟨hx, hy⟩ := h p hp
    simp only [XYPoint.mk.injEq, hx, hy]
    constructor <;> ring

/-- Witness for `applyVelocity_reprojection`: a two-observation linear
track at velocity `(1/2, 1/2)` from `(1, 2)`. -/
theorem applyVelocity_reprojection_witness :
    (applyVelocity (1 / 2) (1 / 2) [⟨1, 2, 0⟩, ⟨3 / 2, 5 / 2, 1⟩]).getD 1 ⟨0, 0⟩ =
      ⟨(3 : ℚ) / 2 - 1 / 2 * 1, 5 / 2 - 1 / 2 * 1⟩ ∧
    ∀ q ∈ applyVelocity (1 / 2) (1 / 2) [⟨1, 2, 0⟩, ⟨3 / 2, 5 / 2, 1⟩], q = ⟨1, 2⟩ := by
  constructor
  · have h := (applyVelocity_reprojection (1 / 2) (1 / 2)
      [⟨1, 2, 0⟩, ⟨3 / 2, 5 / 2, 1⟩]).2.1 1 (by norm_num)
    simpa using h
  · refine (applyVelocity_reprojection (1 / 2) (1 / 2) [⟨1, 2, 0⟩, ⟨3 / 2, 5 / 2, 1⟩]).2.2 1 2 ?_
    intro p hp
    simp only [List.mem_cons, List.not_mem_nil, or_false] at hp
    rcases hp with rfl | rfl <;> norm_num

/-- C10: the float32 k-d tree and the R*-tree backends store point
indices as `u16`: an index below 65536 round-trips exactly, an index of
65536 or more is stored as its value modulo 2^16 and no longer equals
itself, so the returned neighbour ids no longer identify the original
points. -/
theorem u16_index_roundtrip (n i : Nat) (hi : i < n) :
    float32TreeStoredIdx i = i % 65536 ∧ rstarStoredIdx i = i % 65536 ∧
    (n ≤ 65536 → float32TreeStoredIdx i = i ∧ rstarStoredIdx i = i) ∧
    (65536 ≤ i → float32TreeStoredIdx i ≠ i ∧ rstarStoredIdx i ≠ i) := by
  refine ⟨rfl, rfl, fun hn => ?_, fun hbig => ?_⟩
  · have h : i < 65536 := lt_of_lt_of_le hi hn
    constructor <;>
      simp [float32TreeStoredIdx, rstarStoredIdx, u16Cast, Nat.mod_eq_of_lt h]
  · have h := Nat.mod_lt i (show 0 < 65536 by norm_num)
    constructor <;> simp only [float32TreeStoredIdx, rstarStoredIdx, u16Cast] <;> omega

/-- Witness for `u16_index_roundtrip`: index 5 of a 100-point input
round-trips; index 65536 (of a 70000-point input) does not. -/
theorem u16_index_roundtrip_witness :
    float32TreeStoredIdx 5 = 5 ∧ float32TreeStoredIdx 65536 ≠ 65536 :=
  ⟨((u16_index_roundtrip 100 5 (by norm_num)).2.2.1 (by norm_num)).1,
   ((u16_index_roundtrip 70000 65536 (by norm_num)).2.2.2 (by norm_num)).1⟩

/-- C1 (code bug): with `n_workers = 2` and `vxs = [0, 1]`,
`work_chunk_size` is `ceil(2/2) = 1`, so `vxs` splits into two chunks,
but the spawn loop `for _i in 1..n_threads` starts only one worker; the
chunk `[1]` is never processed.  The parallel branch emits one result
where the serial branch emits two — the claim's "exactly one result per
`(vx, vy)` pair" and the equality of membership multisets both fail.
(The channel delivers a permutation of the emitted list, so the missing
result is missing under every interleaving.) -/
theorem gridsearch_parallel_drops_chunk :
    (clusterGridSearch (fun _ => []) [] [0, 1] [0] 2).length = 1 ∧
    (clusterGridSearch (fun _ => []) [] [0, 1] [0] 1).length = 2 ∧
    (clusterGridSearch (fun _ => []) [] [0, 1] [0] 2).map (fun r => (r.vx, r.vy)) =
      [(0, 0)] ∧
    (clusterGridSearch (fun _ => []) [] [0, 1] [0] 1).map (fun r => (r.vx, r.vy)) =
      [(0, 0), (1, 0)] := by
  refine ⟨?_, by rfl, ?_, by rfl⟩ <;>
    simp [clusterGridSearch, clusterGridSearchParallelSent, listChunks, workChunkSize]

/-- C8 (amended): the entry point `grid_search_py` validates only that
`xs`, `ys` and `dts` have equal lengths — the search dispatches (and
returns `Ok`) exactly when they do, whatever the velocity grid, `eps`
or the other inputs. -/
theorem gridSearchPy_validates_only_lengths
    (clusterAt : ℚ → Nat → List (XYPoint ℚ) → List Int)
    (xs ys dts vxs vys : List ℚ) (eps : ℚ) (minSize nThreads : Nat) :
    (∃ tables, gridSearchPy clusterAt xs ys dts vxs vys eps minSize nThreads =
      Except.ok tables) ↔ (xs.length = ys.length ∧ xs.length = dts.length) := by
  unfold gridSearchPy
  split_ifs with h
  · constructor
    · rintro ⟨t, ht⟩
      simp at ht
    · intro hlen
      rcases h with h | h <;> exact absurd (by tauto) h
  · push_neg at h
    exact iff_of_true ⟨_, rfl⟩ h

/-- C8 (counterexample): an empty velocity grid and `eps = -1` are both
accepted — the entry point returns `Ok` with empty tables instead of the
`InvalidInput` error the claim requires. -/
theorem gridSearchPy_accepts_empty_grid_and_bad_eps :
    gridSearchPy (fun _ _ pts => pts.map fun _ => (-1 : Int))
      [0] [0] [0] [] [] 1 1 1 = Except.ok ([], []) ∧
    gridSearchPy (fun _ _ pts => pts.map fun _ => (-1 : Int))
      [0] [0] [0] [-1] [2] (-1) 1 1 = Except.ok ([], []) ∧
    ∀ e : String,
      (Except.ok (([], []) : List ClusterRow × List MemberRow) : Except String _) ≠
        Except.error e := by
  exact ⟨rfl, rfl, fun e => by simp⟩

/-! Small list helpers shared by the DBSCAN development. -/

theorem getD_set_self {L : List DBScanClassification} {j : Nat}
    (hj : j < L.length) (v d : DBScanClassification) : (L.set j v).getD j d = v := by
  simp [List.getD_eq_getElem?_getD, List.getElem?_set_eq_of_lt v hj]

theorem getD_set_ne {L : List DBScanClassification} {i j : Nat} (h : i ≠ j)
    (v d : DBScanClassification) : (L.set i v).getD j d = L.getD j d := by
  simp [List.getD_eq_getElem?_getD, List.getElem?_set_ne h]

/-! Unfolding equations and branch lemmas for the expansion loop. -/

theorem expandGo_nil (N : Nat → List Nat) (minSize k : Nat)
    (L : List DBScanClassification) : expandGo N minSize k L [] = L := by
  rw [expandGo]

theorem expandGo_cons (N : Nat → List Nat) (minSize k : Nat)
    (L : List DBScanClassification) (j : Nat) (t : List Nat) :
    expandGo N minSize k L (j :: t) =
      expandGo N minSize k (procOne N minSize k L j).1
        ((procOne N minSize k L j).2 ++ t) := by
  conv_lhs => rw [expandGo]

theorem procOne_oob {L : List DBScanClassification} {j : Nat}
    (N : Nat → List Nat) (minSize k : Nat) (h : L.length ≤ j) :
    procOne N minSize k L j = (L, []) := by
  simp [procOne, h]

theorem procOne_noise_sparse {L : List DBScanClassification} {j : Nat}
    (N : Nat → List Nat) (minSize k : Nat) (hj : j < L.length)
    (hn : L.getD j .undefined = .noise) (hs : (N j).length < minSize) :
    procOne N minSize k L j = (L.set j (.border k), []) := by
  unfold procOne
  rw [if_neg (Nat.not_le.2 hj), if_pos hn, if_neg (Nat.not_le.2 hs)]

theorem procOne_noise_dense {L : List DBScanClassification} {j : Nat}
    (N : Nat → List Nat) (minSize k : Nat) (hj : j < L.length)
    (hn : L.getD j .undefined = .noise) (hd : minSize ≤ (N j).length) :
    procOne N minSize k L j = (L.set j (.core k), (N j).reverse) := by
  unfold procOne
  rw [if_neg (Nat.not_le.2 hj), if_pos hn, if_pos hd, List.set_set]

theorem procOne_already {L : List DBScanClassification} {j : Nat}
    (N : Nat → List Nat) (minSize k : Nat)
    (hn : L.getD j .undefined ≠ .noise) (hu : L.getD j .undefined ≠ .undefined) :
    procOne N minSize k L j = (L, []) := by
  by_cases hj : L.length ≤ j
  · exact procOne_oob N minSize k hj
  · unfold procOne
    rw [if_neg hj, if_neg hn, if_pos hu]

theorem procOne_undefined_dense {L : List DBScanClassification} {j : Nat}
    (N : Nat → List Nat) (minSize k : Nat) (hj : j < L.length)
    (hu : L.getD j .undefined = .undefined) (hd : minSize ≤ (N j).length) :
    procOne N minSize k L j = (L.set j (.core k), (N j).reverse) := by
  unfold procOne
  rw [if_neg (Nat.not_le.2 hj), if_neg (by rw [hu]; exact fun h => by cases h),
    if_neg (by rw [hu]; exact fun h => h rfl), if_pos hd]

theorem procOne_undefined_sparse {L : List DBScanClassification} {j : Nat}
    (N : Nat → List Nat) (minSize k : Nat)
    (hu : L.getD j .undefined = .undefined) (hs : (N j).length < minSize) :
    procOne N minSize k L j = (L, []) := by
  by_cases hj : L.length ≤ j
  · exact procOne_oob N minSize k hj
  · unfold procOne
    rw [if_neg hj, if_neg (by rw [hu]; exact fun h => by cases h),
      if_neg (by rw [hu]; exact fun h => h rfl), if_neg (Nat.not_le.2 hs)]

/-- The label part of one expansion step only rewrites the popped cell,
and only from `Noise`/`Undefined` to `Border k`/`Core k`; the length is
unchanged. -/
theorem procOne_fst_evolve (N : Nat → List Nat) (minSize k : Nat)
    (L : List DBScanClassification) (j : Nat) :
    (procOne N minSize k L j).1.length = L.length ∧
    ∀ p, labelEvolved k (L.getD p .undefined)
      ((procOne N minSize k L j).1.getD p .undefined) := by
  unfold procOne
  split_ifs with h0 h1 h2 h3 h4 <;>
    refine ⟨by simp, fun p => ?_⟩
  · exact Or.inl rfl
  · rw [List.set_set]
    by_cases hp : p = j
    · subst hp
      rw [getD_set_self (by omega)]
      exact Or.inr ⟨Or.inl h1, Or.inr rfl⟩
    · rw [getD_set_ne (fun hh => hp hh.symm)]
      exact Or.inl rfl
  · by_cases hp : p = j
    · subst hp
      rw [getD_set_self (by omega)]
      exact Or.inr ⟨Or.inl h1, Or.inl rfl⟩
    · rw [getD_set_ne (fun hh => hp hh.symm)]
      exact Or.inl rfl
  · exact Or.inl rfl
  · push_neg at h3
    by_cases hp : p = j
    · subst hp
      rw [getD_set_self (by omega)]
      exact Or.inr ⟨Or.inr h3, Or.inr rfl⟩
    · rw [getD_set_ne (fun hh => hp hh.symm)]
      exact Or.inl rfl
  · exact Or.inl rfl

/-- Any property preserved by single expansion steps is preserved by the
whole expansion loop. -/
theorem expandGo_preserves (N : Nat → List Nat) (minSize k : Nat)
    (P : List DBScanClassification → Prop)
    (hstep : ∀ L j, P L → P (procOne N minSize k L j).1) :
    ∀ L s, P L → P (expandGo N minSize k L s) := by
  intro L s
  induction L, s using expandGo.induct N minSize k with
  | case1 L =>
    intro hP
    rw [expandGo_nil]
    exact hP
  | case2 L j t ih =>
    intro hP
    rw [expandGo_cons]
    exact ih (hstep L j hP)

/-- One expansion step preserves the noise-is-sparse invariant: the step
never writes `Noise`. -/
theorem procOne_preserves_noiseSparse (N : Nat → List Nat) (minSize k : Nat)
    (L : List DBScanClassification) (j : Nat) (h : noiseSparse N minSize L) :
    noiseSparse N minSize (procOne N minSize k L j).1 := by
  intro p hp
  rcases (procOne_fst_evolve N minSize k L j).2 p with heq | ⟨_, hnew⟩
  · exact h p (heq ▸ hp)
  · rcases hnew with hb | hb <;> rw [hp] at hb <;> cases hb

/-- The expansion loop preserves the noise-is-sparse invariant. -/
theorem expandGo_preserves_noiseSparse (N : Nat → List Nat) (minSize k : Nat)
    (L : List DBScanClassification) (s : List Nat) (h : noiseSparse N minSize L) :
    noiseSparse N minSize (expandGo N minSize k L s) :=
  expandGo_preserves N minSize k (noiseSparse N minSize)
    (procOne_preserves_noiseSparse N minSize k) L s h

/-- The outer scan of `dbscan` preserves the noise-is-sparse invariant
(it writes `Noise` only after finding the neighbourhood sparse), so the
invariant holds at every state of a run started from all-`Undefined`
labels. -/
theorem dbscanOuter_preserves_noiseSparse (N : Nat → List Nat) (minSize n : Nat)
    (i k : Nat) (L : List DBScanClassification) (h : noiseSparse N minSize L) :
    noiseSparse N minSize (dbscanOuter N minSize n i k L).1 := by
  induction i, k, L using dbscanOuter.induct N minSize n with
  | case1 i k L hi hlab ih =>
    rw [dbscanOuter, if_pos hi, if_pos hlab]
    exact ih h
  | case2 i k L hi hlab hsparse ih =>
    rw [dbscanOuter, if_pos hi, if_neg hlab, if_pos hsparse]
    refine ih ?_
    intro p hp
    by_cases hpi : p = i
    · subst hpi
      exact hsparse
    · rw [getD_set_ne (fun hh => hpi hh.symm)] at hp
      exact h p hp
  | case3 i k L hi hlab hsparse ih =>
    rw [dbscanOuter, if_pos hi, if_neg hlab, if_neg hsparse]
    refine ih (expandGo_preserves_noiseSparse _ _ _ _ _ ?_)
    intro p hp
    by_cases hpi : p = i
    · subst hpi
      rw [List.getD_eq_getElem?_getD, List.getElem?_set_self'] at hp
      cases hL : L[p]? <;> rw [hL] at hp <;> simp at hp
    · rw [getD_set_ne (fun hh => hpi hh.symm)] at hp
      exact h p hp
  | case4 i k L hi =>
    rw [dbscanOuter, if_neg hi]
    exact h

/-- C2 (amended): what the expansion loop actually does to a popped
neighbour `j`.  If `j` is `Noise` with a sparse neighbourhood — and in a
real run every `Noise` point is sparse, by the `noiseSparse` invariant
above — it is upgraded to `Border(k)` and nothing is pushed (the source
does query its neighbourhood again, but the query cannot reach
`min_weight`).  If `j` is `Undefined`, its own neighbourhood is queried:
when it has at least `min_weight` members `j` becomes `Core(k)` and its
neighbours are pushed; otherwise `j` is left `Undefined` — the claim's
`Border(k)` branch does not exist in the code. -/
theorem dbscan_expansion_amended (N : Nat → List Nat) (minSize k : Nat)
    (L : List DBScanClassification) (j : Nat) (t : List Nat) (hj : j < L.length) :
    (L.getD j .undefined = .noise → (N j).length < minSize →
      expandGo N minSize k L (j :: t) =
        expandGo N minSize k (L.set j (.border k)) t) ∧
    (L.getD j .undefined = .undefined → minSize ≤ (N j).length →
      expandGo N minSize k L (j :: t) =
        expandGo N minSize k (L.set j (.core k)) ((N j).reverse ++ t)) ∧
    (L.getD j .undefined = .undefined → (N j).length < minSize →
      expandGo N minSize k L (j :: t) = expandGo N minSize k L t) := by
  refine ⟨fun hn hs => ?_, fun hu hd => ?_, fun hu hs => ?_⟩
  · rw [expandGo_cons, procOne_noise_sparse N minSize k hj hn hs]
    simp
  · rw [expandGo_cons, procOne_undefined_dense N minSize k hj hu hd]
  · rw [expandGo_cons, procOne_undefined_sparse N minSize k hu hs]
    simp

/-- Witness for `dbscan_expansion_amended`, at the state the
four-point counterexample run reaches when it pops index 3. -/
theorem dbscan_expansion_amended_witness :
    expandGo (fun i => [[0, 1], [0, 1, 2], [1, 2, 3], [2, 3]].getD i []) 3 1
        [.noise, .core 1, .core 1, .undefined] (3 :: [2, 1, 1, 0]) =
      expandGo (fun i => [[0, 1], [0, 1, 2], [1, 2, 3], [2, 3]].getD i []) 3 1
        [.noise, .core 1, .core 1, .undefined] [2, 1, 1, 0] :=
  (dbscan_expansion_amended (fun i => [[0, 1], [0, 1, 2], [1, 2, 3], [2, 3]].getD i [])
    3 1 [.noise, .core 1, .core 1, .undefined] 3 [2, 1, 1, 0]
    (by norm_num)).2.2 (by rfl) (by norm_num)

/-! Label-shape development (C3). -/

theorem labelClusterMap_length (q : List (XYPoint ℤ))
    (m : List (XYPoint ℤ × List Nat)) (minSize : Nat) :
    (labelClusterMap q m minSize).length = q.length := by
  simp [labelClusterMap]

theorem labelClusterMap_mem (q : List (XYPoint ℤ))
    (m : List (XYPoint ℤ × List Nat)) (minSize : Nat) :
    ∀ l ∈ labelClusterMap q m minSize, l = -1 ∨ 0 ≤ l := by
  intro l hl
  obtain ⟨p, _, rfl⟩ := List.mem_map.1 hl
  rcases h : lookupCell (buildLabelMapGo minSize 0 m) p with _ | g <;>
    simp [h, Int.natCast_nonneg]

theorem int_getD_shape (l : List Int) (h : ∀ x ∈ l, x = -1 ∨ 0 ≤ x) (i : Nat) :
    l.getD i 0 = -1 ∨ 0 ≤ l.getD i 0 := by
  by_cases hi : i < l.length
  · have heq : l.getD i 0 = l.get ⟨i, hi⟩ := by
      rw [List.getD_eq_getElem?_getD, List.getElem?_eq_getElem hi]
      rfl
    rw [heq]
    exact h _ (List.get_mem l i hi)
  · right
    rw [List.getD_eq_getElem?_getD, List.getElem?_eq_none (by omega)]
    norm_num

theorem mergeClusterLabels_length (l1 l2 l3 l4 : List Int) :
    (mergeClusterLabels l1 l2 l3 l4).length = l1.length := by
  simp [mergeClusterLabels]

theorem mergeClusterLabels_mem (l1 l2 l3 l4 : List Int)
    (h1 : ∀ x ∈ l1, x = -1 ∨ 0 ≤ x) (h2 : ∀ x ∈ l2, x = -1 ∨ 0 ≤ x)
    (h3 : ∀ x ∈ l3, x = -1 ∨ 0 ≤ x) (h4 : ∀ x ∈ l4, x = -1 ∨ 0 ≤ x) :
    ∀ l ∈ mergeClusterLabels l1 l2 l3 l4, l = -1 ∨ 0 ≤ l := by
  intro l hl
  obtain ⟨i, _, rfl⟩ := List.mem_map.1 hl
  split_ifs with c1 c2 c3 c4
  · rcases int_getD_shape l1 h1 i with h | h
    · exact absurd h c1
    · exact Or.inr h
  · rcases int_getD_shape l2 h2 i with h | h
    · exact absurd h c2
    · exact Or.inr h
  · rcases int_getD_shape l3 h3 i with h | h
    · exact absurd h c3
    · exact Or.inr h
  · rcases int_getD_shape l4 h4 i with h | h
    · exact absurd h c4
    · exact Or.inr h
  · exact Or.inl rfl

theorem findClustersHotspot2d_shape (pts : List (XYPoint ℚ)) (eps : ℚ)
    (minSize : Nat) :
    (findClustersHotspot2d pts eps minSize).length = pts.length ∧
    ∀ l ∈ findClustersHotspot2d pts eps minSize, l = -1 ∨ 0 ≤ l := by
  constructor
  · rw [findClustersHotspot2d, mergeClusterLabels_length, labelClusterMap_length]
    simp [quantize]
  · rw [findClustersHotspot2d]
    exact mergeClusterLabels_mem _ _ _ _ (labelClusterMap_mem _ _ _)
      (labelClusterMap_mem _ _ _) (labelClusterMap_mem _ _ _) (labelClusterMap_mem _ _ _)

/-- During the expansion of cluster `k` (with `1 ≤ k`), the label array
keeps its length, every cell stays `Undefined`/`Noise` or carries a
cluster index in `[1, k]`, and every cluster index in `[1, k]` keeps a
`Core` cell. -/
theorem expandGo_shape (N : Nat → List Nat) (minSize k n : Nat) (hk : 1 ≤ k)
    (L : List DBScanClassification) (s : List Nat)
    (hinv : L.length = n ∧
      (∀ p, (L.getD p .undefined = .undefined ∨ L.getD p .undefined = .noise) ∨
        ∃ j, 1 ≤ j ∧ j ≤ k ∧
          (L.getD p .undefined = .border j ∨ L.getD p .undefined = .core j)) ∧
      (∀ j, 1 ≤ j → j ≤ k → ∃ p, p < n ∧ L.getD p .undefined = .core j)) :
    (expandGo N minSize k L s).length = n ∧
    (∀ p, ((expandGo N minSize k L s).getD p .undefined = .undefined ∨
        (expandGo N minSize k L s).getD p .undefined = .noise) ∨
      ∃ j, 1 ≤ j ∧ j ≤ k ∧
        ((expandGo N minSize k L s).getD p .undefined = .border j ∨
         (expandGo N minSize k L s).getD p .undefined = .core j)) ∧
    (∀ j, 1 ≤ j → j ≤ k → ∃ p, p < n ∧
      (expandGo N minSize k L s).getD p .undefined = .core j) := by
  refine expandGo_preserves N minSize k
    (fun M => M.length = n ∧
      (∀ p, (M.getD p .undefined = .undefined ∨ M.getD p .undefined = .noise) ∨
        ∃ j, 1 ≤ j ∧ j ≤ k ∧
          (M.getD p .undefined = .border j ∨ M.getD p .undefined = .core j)) ∧
      (∀ j, 1 ≤ j → j ≤ k → ∃ p, p < n ∧ M.getD p .undefined = .core j))
    ?_ L s hinv
  rintro M j ⟨hlen, hA, hB⟩
  obtain ⟨hlen', hev⟩ := procOne_fst_evolve N minSize k M j
  refine ⟨hlen'.trans hlen, ?_, ?_⟩
  · intro p
    rcases hev p with heq | ⟨_, hnew⟩
    · rw [heq]
      exact hA p
    · exact Or.inr ⟨k, hk, le_refl k, hnew⟩
  · intro j' hj1 hjk
    obtain ⟨p, hp, hcore⟩ := hB j' hj1 hjk
    refine ⟨p, hp, ?_⟩
    rcases hev p with heq | ⟨hold, _⟩
    · rw [heq, hcore]
    · rw [hcore] at hold
      rcases hold with h | h <;> cases h

/-- The expansion loop never changes the length of the label array. -/
theorem expandGo_length (N : Nat → List Nat) (minSize k : Nat)
    (L : List DBScanClassification) (s : List Nat) :
    (expandGo N minSize k L s).length = L.length :=
  expandGo_preserves N minSize k (fun M => M.length = L.length)
    (fun M j hM => by
      show (procOne N minSize k M j).1.length = L.length
      rw [(procOne_fst_evolve N minSize k M j).1]
      exact hM) L s rfl

/-- The outer scan never changes the length of the label array (no
bound on the counter needed). -/
theorem dbscanOuter_length (N : Nat → List Nat) (minSize n : Nat) :
    ∀ (i k : Nat) (L : List DBScanClassification),
    (dbscanOuter N minSize n i k L).1.length = L.length := by
  intro i k L
  induction i, k, L using dbscanOuter.induct N minSize n with
  | case1 i k L hi hlab ih =>
    rw [dbscanOuter, if_pos hi, if_pos hlab]
    exact ih
  | case2 i k L hi hlab hsparse ih =>
    rw [dbscanOuter, if_pos hi, if_neg hlab, if_pos hsparse]
    rw [ih, List.length_set]
  | case3 i k L hi hlab hdense ih =>
    rw [dbscanOuter, if_pos hi, if_neg hlab, if_neg hdense]
    rw [ih, expandGo_length, List.length_set]
  | case4 i k L hi =>
    rw [dbscanOuter, if_neg hi]

/-- `dbscan` returns one label per point, for every input. -/
theorem dbscanCore_length (N : Nat → List Nat) (minSize n : Nat) :
    (dbscanCore N minSize n).length = n := by
  rw [dbscanCore, List.length_map, dbscanOuter_length, List.length_replicate]

/-- Every final label is `-1` or a nonnegative cast of the (wrapped)
cluster index. -/
theorem classificationToLabel_shape (c : DBScanClassification) :
    classificationToLabel c = -1 ∨ 0 ≤ classificationToLabel c := by
  cases c
  · exact Or.inl rfl
  · exact Or.inl rfl
  · exact Or.inr (Int.natCast_nonneg _)
  · exact Or.inr (Int.natCast_nonneg _)

/-- The outer scan of `dbscan` keeps the label-range invariant and only
grows the cluster counter, provided the `u16` counter cannot wrap: the
counter never exceeds the scan position (`k ≤ i`), so with fewer than
`65536` points the increment `(k + 1) % 65536` is exactly `k + 1`. -/
theorem dbscanOuter_shape (N : Nat → List Nat) (minSize n : Nat) (hn : n < 65536)
    (i k : Nat) (L : List DBScanClassification) :
    k ≤ i →
    L.length = n →
    (∀ p, (L.getD p .undefined = .undefined ∨ L.getD p .undefined = .noise) ∨
      ∃ j, 1 ≤ j ∧ j ≤ k ∧
        (L.getD p .undefined = .border j ∨ L.getD p .undefined = .core j)) →
    (∀ j, 1 ≤ j → j ≤ k → ∃ p, p < n ∧ L.getD p .undefined = .core j) →
    (dbscanOuter N minSize n i k L).1.length = n ∧
    (∀ p, ((dbscanOuter N minSize n i k L).1.getD p .undefined = .undefined ∨
        (dbscanOuter N minSize n i k L).1.getD p .undefined = .noise) ∨
      ∃ j, 1 ≤ j ∧ j ≤ (dbscanOuter N minSize n i k L).2 ∧
        ((dbscanOuter N minSize n i k L).1.getD p .undefined = .border j ∨
         (dbscanOuter N minSize n i k L).1.getD p .undefined = .core j)) ∧
    (∀ j, 1 ≤ j → j ≤ (dbscanOuter N minSize n i k L).2 → ∃ p, p < n ∧
      (dbscanOuter N minSize n i k L).1.getD p .undefined = .core j) := by
  induction i, k, L using dbscanOuter.induct N minSize n with
  | case1 i k L hi hlab ih =>
    intro hki hlen hA hB
    rw [dbscanOuter, if_pos hi, if_pos hlab]
    exact ih (by omega) hlen hA hB
  | case2 i k L hi hlab hsparse ih =>
    intro hki hlen hA hB
    rw [dbscanOuter, if_pos hi, if_neg hlab, if_pos hsparse]
    refine ih (by omega) (by simp [hlen]) ?_ ?_
    · intro p
      by_cases hpi : p = i
      · subst hpi
        rw [List.getD_eq_getElem?_getD, List.getElem?_set_self']
        cases hL : L[p]? <;> simp [hL]
      · rw [getD_set_ne (fun hh => hpi hh.symm)]
        exact hA p
    · intro j hj1 hjk
      obtain ⟨p, hp, hcore⟩ := hB j hj1 hjk
      push_neg at hlab
      refine ⟨p, hp, ?_⟩
      by_cases hpi : p = i
      · subst hpi
        rw [hlab] at hcore
        cases hcore
      · rw [getD_set_ne (fun hh => hpi hh.symm)]
        exact hcore
  | case3 i k L hi hlab hdense ih =>
    intro hki hlen hA hB
    have hmod : (k + 1) % 65536 = k + 1 := Nat.mod_eq_of_lt (by omega)
    rw [dbscanOuter, if_pos hi, if_neg hlab, if_neg hdense]
    rw [hmod] at ih ⊢
    push_neg at hlab
    have hiL : i < L.length := by omega
    have hstart : (L.set i (.core (k + 1))).length = n ∧
        (∀ p, ((L.set i (.core (k + 1))).getD p .undefined = .undefined ∨
            (L.set i (.core (k + 1))).getD p .undefined = .noise) ∨
          ∃ j, 1 ≤ j ∧ j ≤ k + 1 ∧
            ((L.set i (.core (k + 1))).getD p .undefined = .border j ∨
             (L.set i (.core (k + 1))).getD p .undefined = .core j)) ∧
        (∀ j, 1 ≤ j → j ≤ k + 1 → ∃ p, p < n ∧
          (L.set i (.core (k + 1))).getD p .undefined = .core j) := by
      refine ⟨by simp [hlen], ?_, ?_⟩
      · intro p
        by_cases hpi : p = i
        · subst hpi
          rw [getD_set_self hiL]
          exact Or.inr ⟨k + 1, by omega, le_refl _, Or.inr rfl⟩
        · rw [getD_set_ne (fun hh => hpi hh.symm)]
          rcases hA p with h | ⟨j, hj1, hjk, hj⟩
          · exact Or.inl h
          · exact Or.inr ⟨j, hj1, by omega, hj⟩
      · intro j hj1 hjk
        by_cases hjk1 : j = k + 1
        · subst hjk1
          exact ⟨i, hi, by rw [getD_set_self hiL]⟩
        · obtain ⟨p, hp, hcore⟩ := hB j hj1 (by omega)
          refine ⟨p, hp, ?_⟩
          by_cases hpi : p = i
          · subst hpi
            rw [hlab] at hcore
            cases hcore
          · rw [getD_set_ne (fun hh => hpi hh.symm)]
            exact hcore
    have hshape := expandGo_shape N minSize (k + 1) n (by omega)
      (L.set i (.core (k + 1))) ((N i).reverse) hstart
    exact ih (by omega) hshape.1 hshape.2.1 hshape.2.2
  | case4 i k L hi =>
    intro hki hlen hA hB
    rw [dbscanOuter, if_neg hi]
    exact ⟨hlen, hA, hB⟩

/-- The DBSCAN label vector has one entry per point, and its entries are
`-1` or a positive integer at most the number of distinct positive
labels (positives are dense from 1). -/
theorem dbscanCore_label_shape (N : Nat → List Nat) (minSize n : Nat)
    (hn : n < 65536) :
    (dbscanCore N minSize n).length = n ∧
    ∀ l ∈ dbscanCore N minSize n,
      l = -1 ∨ (1 ≤ l ∧ l ≤ (numDistinctPos (dbscanCore N minSize n) : Int)) := by
  have hrepl : ∀ p, (List.replicate n DBScanClassification.undefined).getD p .undefined =
      .undefined := by
    intro p
    rw [List.getD_eq_getElem?_getD, List.getElem?_replicate]
    split <;> rfl
  obtain ⟨hlen, hA, hB⟩ := dbscanOuter_shape N minSize n hn 0 0
    (List.replicate n .undefined) (le_refl 0) (by simp)
    (fun p => Or.inl (Or.inl (hrepl p)))
    (fun j hj1 hj0 => absurd (hj1.trans hj0) (by omega))
  set R := dbscanOuter N minSize n 0 0 (List.replicate n .undefined) with hR
  have houtlen : (dbscanCore N minSize n).length = n := by
    rw [dbscanCore, ← hR, List.length_map, hlen]
  have hgetD : ∀ (pf : Fin R.1.length), R.1.getD pf.val .undefined = R.1.get pf := by
    intro pf
    rw [List.getD_eq_getElem?_getD, List.getElem?_eq_getElem pf.isLt]
    rfl
  have hmemchar : ∀ l ∈ dbscanCore N minSize n,
      l = -1 ∨ ∃ j, 1 ≤ j ∧ j ≤ R.2 ∧ l = (j : Int) := by
    intro l hl
    rw [dbscanCore, ← hR] at hl
    obtain ⟨c, hc, rfl⟩ := List.mem_map.1 hl
    obtain ⟨pf, rfl⟩ := List.mem_iff_get.1 hc
    rcases hA pf.val with h | ⟨j, hj1, hjk, hj⟩
    · rcases h with h | h <;> rw [hgetD pf] at h <;> rw [h] <;>
        exact Or.inl rfl
    · rcases hj with h | h <;> rw [hgetD pf] at h <;> rw [h] <;>
        exact Or.inr ⟨j, hj1, hjk, rfl⟩
  have hjmem : ∀ j, 1 ≤ j → j ≤ R.2 → (j : Int) ∈ dbscanCore N minSize n := by
    intro j hj1 hjk
    obtain ⟨p, hp, hcore⟩ := hB j hj1 hjk
    have hp' : p < R.1.length := by omega
    rw [hgetD ⟨p, hp'⟩] at hcore
    rw [dbscanCore, ← hR]
    have hcl : classificationToLabel (R.1.get ⟨p, hp'⟩) = (j : Int) := by
      rw [hcore]
      rfl
    rw [← hcl]
    exact List.mem_map_of_mem _ (List.get_mem R.1 p hp')
  have himg : ((dbscanCore N minSize n).filter fun l => decide (0 < l)).toFinset =
      (Finset.Icc 1 R.2).image (fun j : Nat => (j : Int)) := by
    ext x
    simp only [List.mem_toFinset, List.mem_filter, Finset.mem_image, Finset.mem_Icc,
      decide_eq_true_eq]
    constructor
    · rintro ⟨hx, hpos⟩
      rcases hmemchar x hx with rfl | ⟨j, hj1, hjk, rfl⟩
      · omega
      · exact ⟨j, ⟨hj1, hjk⟩, rfl⟩
    · rintro ⟨j, ⟨hj1, hjk⟩, rfl⟩
      exact ⟨hjmem j hj1 hjk, by exact_mod_cast hj1⟩
  have hK : numDistinctPos (dbscanCore N minSize n) = R.2 := by
    rw [numDistinctPos, ← List.card_toFinset, himg,
      Finset.card_image_of_injective _ (fun a b h => by exact_mod_cast h),
      Nat.card_Icc]
    omega
  refine ⟨houtlen, ?_⟩
  intro l hl
  rcases hmemchar l hl with rfl | ⟨j, hj1, hjk, rfl⟩
  · exact Or.inl rfl
  · refine Or.inr ⟨by exact_mod_cast hj1, ?_⟩
    rw [hK]
    exact_mod_cast hjk

/-- With every point isolated — each range query returns exactly the
queried point — and `min_weight = 1`, every scanned point opens its own
cluster, so the labels take the successive wrapped counter values:
starting the scan at `i` with counter `k < 65536`, point `j ≥ i` ends up
`Core ((k + (j - i) + 1) % 65536)`, and indices below `i` are
untouched. -/
theorem dbscanOuter_isolated (n : Nat) :
    ∀ (i k : Nat) (L : List DBScanClassification), k < 65536 → L.length = n →
    (∀ j, j < n → i ≤ j → L.getD j .undefined = .undefined) →
    ∀ j, (j < n → i ≤ j →
      (dbscanOuter (fun t => [t]) 1 n i k L).1.getD j .undefined =
        .core ((k + (j - i) + 1) % 65536)) ∧
    (j < i →
      (dbscanOuter (fun t => [t]) 1 n i k L).1.getD j .undefined =
        L.getD j .undefined) := by
  intro i k L
  induction i, k, L using dbscanOuter.induct (fun t => [t]) 1 n with
  | case1 i k L hi hlab ih =>
    intro hk hlen hund
    exact absurd (hund i hi (le_refl i)) hlab
  | case2 i k L hi hlab hsparse ih =>
    intro hk hlen hund
    simp at hsparse
  | case3 i k L hi hlab hdense ih =>
    intro hk hlen hund
    have hiL : i < L.length := by omega
    have hset : (L.set i (.core ((k + 1) % 65536))).getD i .undefined =
        .core ((k + 1) % 65536) := getD_set_self hiL _ _
    have hexp : expandGo (fun t => [t]) 1 ((k + 1) % 65536)
        (L.set i (.core ((k + 1) % 65536))) (([i] : List Nat).reverse) =
        L.set i (.core ((k + 1) % 65536)) := by
      rw [show ([i] : List Nat).reverse = [i] from rfl, expandGo_cons,
        procOne_already _ _ _ (by rw [hset]; exact fun h => by cases h)
          (by rw [hset]; exact fun h => by cases h)]
      exact expandGo_nil _ _ _ _
    rw [dbscanOuter, if_pos hi, if_neg hlab, if_neg hdense]
    rw [hexp] at ih ⊢
    have hk2 : (k + 1) % 65536 < 65536 := Nat.mod_lt _ (by omega)
    have hlen2 : (L.set i (.core ((k + 1) % 65536))).length = n := by
      rw [List.length_set, hlen]
    have hund2 : ∀ j, j < n → i + 1 ≤ j →
        (L.set i (.core ((k + 1) % 65536))).getD j .undefined = .undefined := by
      intro j hj hij
      rw [getD_set_ne (by omega)]
      exact hund j hj (by omega)
    have ih2 := ih hk2 hlen2 hund2
    intro j
    constructor
    · intro hjn hij
      by_cases hji : j = i
      · subst hji
        rw [(ih2 j).2 (Nat.lt_succ_self j), hset]
        have hm : (k + (j - j) + 1) % 65536 = (k + 1) % 65536 := by
          simp
        rw [hm]
      · have hij2 : i + 1 ≤ j := by omega
        rw [(ih2 j).1 hjn hij2]
        have hm : ((k + 1) % 65536 + (j - (i + 1)) + 1) % 65536 =
            (k + (j - i) + 1) % 65536 := by omega
        rw [hm]
    · intro hji
      rw [(ih2 j).2 (by omega), getD_set_ne (by omega)]
  | case4 i k L hi =>
    intro hk hlen hund j
    rw [dbscanOuter, if_neg hi]
    exact ⟨fun hjn hij => absurd hjn (by omega), fun hji => rfl⟩

/-- The wrap of the `u16` cluster counter is reachable: on `65536`
pairwise-isolated points with `min_weight = 1` the 65536-th opened
cluster takes the wrapped counter value `(65535 + 1) % 65536 = 0`, so
`dbscan` emits the label `0` — neither `-1` nor positive.  (A debug
build would panic on the overflowing `cluster_idx += 1` instead.) -/
theorem dbscan_u16_label_wrap :
    (dbscanCore (fun t => [t]) 1 65536).length = 65536 ∧
    (dbscanCore (fun t => [t]) 1 65536).getD 65535 (-1) = 0 := by
  have hlen := dbscanCore_length (fun t => [t]) 1 65536
  have hiso := dbscanOuter_isolated 65536 0 0 (List.replicate 65536 .undefined)
    (by omega) (List.length_replicate _ _)
    (fun j hj _ => by
      rw [List.getD_eq_getElem?_getD, List.getElem?_replicate, if_pos hj]
      rfl)
  have hlab := (hiso 65535).1 (by omega) (by omega)
  have hmod : (0 + (65535 - 0) + 1) % 65536 = 0 := by omega
  rw [hmod] at hlab
  refine ⟨hlen, ?_⟩
  show ((dbscanOuter (fun t => [t]) 1 65536 0 0
      (List.replicate 65536 .undefined)).1.map classificationToLabel).getD 65535 (-1) = 0
  rw [List.getD_eq_getElem?_getD, List.getElem?_map]
  rw [List.getD_eq_getElem?_getD] at hlab
  cases ho : (dbscanOuter (fun t => [t]) 1 65536 0 0
      (List.replicate 65536 .undefined)).1[65535]? with
  | none =>
    rw [ho] at hlab
    simp at hlab
  | some c =>
    rw [ho] at hlab
    rw [Option.getD_some] at hlab
    rw [hlab]
    rfl

/-- C3 (amended): for every algorithm tag and every input, `find_clusters`
returns one label per point, and every entry is `-1` or a nonnegative
integer.  For the three DBSCAN tags, when the input has fewer than
`65536` points — so the `u16` cluster counter cannot wrap — every entry
is `-1` or a positive integer in `[1, K]` with `K` the number of
distinct positive labels; at `65536` or more points the wrapping
counter can emit label `0` (see `dbscan_u16_label_wrap`).  For
`Hotspot2D` the labels are 0-based, so entries are only `-1` or
nonnegative, and after the four-way merge they need not be dense. -/
theorem findClusters_label_shape (oracle : Nat → List Nat) (pts : List (XYPoint ℚ))
    (eps : ℚ) (minSize : Nat) (alg : ClusterAlgorithm) :
    (findClusters oracle pts eps minSize alg).length = pts.length ∧
    (∀ l ∈ findClusters oracle pts eps minSize alg, l = -1 ∨ 0 ≤ l) ∧
    (alg ≠ ClusterAlgorithm.Hotspot2D → pts.length < 65536 →
      ∀ l ∈ findClusters oracle pts eps minSize alg,
        l = -1 ∨ (1 ≤ l ∧
          l ≤ (numDistinctPos (findClusters oracle pts eps minSize alg) : Int))) := by
  cases alg
  case Hotspot2D =>
    obtain ⟨h1, h2⟩ := findClustersHotspot2d_shape pts eps minSize
    exact ⟨h1, h2, fun h => absurd rfl h⟩
  all_goals
    refine ⟨dbscanCore_length oracle minSize pts.length, ?_, ?_⟩
    · intro l hl
      have hl2 : l ∈ (dbscanOuter oracle minSize pts.length 0 0
          (List.replicate pts.length .undefined)).1.map classificationToLabel := hl
      obtain ⟨c, hc, rfl⟩ := List.mem_map.1 hl2
      exact classificationToLabel_shape c
    · intro _ hn
      exact (dbscanCore_label_shape oracle minSize pts.length hn).2

/-- Witness for `findClusters_label_shape`: the dense-range part at the
DBSCAN tag on a concrete two-point input. -/
theorem findClusters_label_shape_witness :
    ∀ l ∈ findClusters (fun i => [[0, 1], [0, 1]].getD i []) [⟨0, 0⟩, ⟨0, 0⟩] 1 2
        ClusterAlgorithm.DBSCAN,
      l = -1 ∨ (1 ≤ l ∧ l ≤ (numDistinctPos (findClusters
        (fun i => [[0, 1], [0, 1]].getD i []) [⟨0, 0⟩, ⟨0, 0⟩] 1 2
        ClusterAlgorithm.DBSCAN) : Int)) :=
  (findClusters_label_shape (fun i => [[0, 1], [0, 1]].getD i [])
    [⟨0, 0⟩, ⟨0, 0⟩] 1 2 ClusterAlgorithm.DBSCAN).2.2 (by decide) (by decide)

/-- C3 (counterexample): at the near-miss input of the source's own
`test_find_clusters_near_miss`, the `Hotspot2D` branch labels the
`(2, 0)` cell's four points with cluster id 0 — an entry that is neither
`-1` nor a positive integer, refuting the claim's `[1, K]` range. -/
theorem hotspot_labels_start_at_zero :
    findClusters (fun _ => []) [⟨1, 0⟩, ⟨1, 0⟩, ⟨1, 0⟩, ⟨1, 1⟩, ⟨2, 0⟩, ⟨2, 0⟩, ⟨2, 0⟩, ⟨2, 0⟩]
        1 4 ClusterAlgorithm.Hotspot2D = [-1, -1, -1, -1, 0, 0, 0, 0] ∧
    (0 : Int) ∈ findClusters (fun _ => [])
        [⟨1, 0⟩, ⟨1, 0⟩, ⟨1, 0⟩, ⟨1, 1⟩, ⟨2, 0⟩, ⟨2, 0⟩, ⟨2, 0⟩, ⟨2, 0⟩]
        1 4 ClusterAlgorithm.Hotspot2D ∧
    ¬((0 : Int) = -1) ∧ ¬(1 ≤ (0 : Int)) := by
  have hq1 : quantize [⟨1, 0⟩, ⟨1, 0⟩, ⟨1, 0⟩, ⟨1, 1⟩, ⟨2, 0⟩, ⟨2, 0⟩, ⟨2, 0⟩, ⟨2, 0⟩] 1 =
      [⟨1, 0⟩, ⟨1, 0⟩, ⟨1, 0⟩, ⟨1, 1⟩, ⟨2, 0⟩, ⟨2, 0⟩, ⟨2, 0⟩, ⟨2, 0⟩] := by
    norm_num [quantize, rustRound]
  have hq2 : quantize (shiftPoints (1 / 2) 0
        [⟨1, 0⟩, ⟨1, 0⟩, ⟨1, 0⟩, ⟨1, 1⟩, ⟨2, 0⟩, ⟨2, 0⟩, ⟨2, 0⟩, ⟨2, 0⟩]) 1 =
      [⟨2, 0⟩, ⟨2, 0⟩, ⟨2, 0⟩, ⟨2, 1⟩, ⟨3, 0⟩, ⟨3, 0⟩, ⟨3, 0⟩, ⟨3, 0⟩] := by
    norm_num [quantize, shiftPoints, rustRound]
  have hq3 : quantize (shiftPoints 0 (1 / 2)
        [⟨1, 0⟩, ⟨1, 0⟩, ⟨1, 0⟩, ⟨1, 1⟩, ⟨2, 0⟩, ⟨2, 0⟩, ⟨2, 0⟩, ⟨2, 0⟩]) 1 =
      [⟨1, 1⟩, ⟨1, 1⟩, ⟨1, 1⟩, ⟨1, 2⟩, ⟨2, 1⟩, ⟨2, 1⟩, ⟨2, 1⟩, ⟨2, 1⟩] := by
    norm_num [quantize, shiftPoints, rustRound]
  have hq4 : quantize (shiftPoints (1 / 2) (1 / 2)
        [⟨1, 0⟩, ⟨1, 0⟩, ⟨1, 0⟩, ⟨1, 1⟩, ⟨2, 0⟩, ⟨2, 0⟩, ⟨2, 0⟩, ⟨2, 0⟩]) 1 =
      [⟨2, 1⟩, ⟨2, 1⟩, ⟨2, 1⟩, ⟨2, 2⟩, ⟨3, 1⟩, ⟨3, 1⟩, ⟨3, 1⟩, ⟨3, 1⟩] := by
    norm_num [quantize, shiftPoints, rustRound]
  have hval : findClusters (fun _ => [])
      [⟨1, 0⟩, ⟨1, 0⟩, ⟨1, 0⟩, ⟨1, 1⟩, ⟨2, 0⟩, ⟨2, 0⟩, ⟨2, 0⟩, ⟨2, 0⟩]
      1 4 ClusterAlgorithm.Hotspot2D = [-1, -1, -1, -1, 0, 0, 0, 0] := by
    show findClustersHotspot2d _ _ _ = _
    rw [findClustersHotspot2d, hq1, hq2, hq3, hq4]
    decide
  refine ⟨hval, ?_, by decide, by decide⟩
  rw [hval]
  decide

/-! Cell-histogram development (C7). -/

theorem lookupCellList_mem {m : List (XYPoint ℤ × List Nat)} {c : XYPoint ℤ}
    {v : List Nat} (h : lookupCellList m c = some v) : (c, v) ∈ m := by
  induction m with
  | nil => cases h
  | cons e rest ih =>
    obtain ⟨q, w⟩ := e
    by_cases hq : q = c
    · subst hq
      rw [lookupCellList, if_pos rfl] at h
      injection h with h
      subst h
      exact List.mem_cons_self _ _
    · rw [lookupCellList, if_neg hq] at h
      exact List.mem_cons_of_mem _ (ih h)

theorem mem_lookupCellList {m : List (XYPoint ℤ × List Nat)}
    (hnd : (m.map Prod.fst).Nodup) {c : XYPoint ℤ} {v : List Nat}
    (h : (c, v) ∈ m) : lookupCellList m c = some v := by
  induction m with
  | nil => cases h
  | cons e rest ih =>
    obtain ⟨q, w⟩ := e
    rw [List.map_cons, List.nodup_cons] at hnd
    rcases List.mem_cons.1 h with h | h
    · rw [Prod.mk.injEq] at h
      obtain ⟨h1, h2⟩ := h
      subst h1
      subst h2
      rw [lookupCellList, if_pos rfl]
    · have hc : c ∈ rest.map Prod.fst := by
        have := List.mem_map_of_mem Prod.fst h
        simpa using this
      have hqc : q ≠ c := fun hqc => hnd.1 (hqc ▸ hc)
      rw [lookupCellList, if_neg hqc]
      exact ih hnd.2 h

theorem hist2dInsert_keys (m : List (XYPoint ℤ × List Nat)) (p : XYPoint ℤ)
    (i : Nat) :
    (hist2dInsert m p i).map Prod.fst =
      if p ∈ m.map Prod.fst then m.map Prod.fst else m.map Prod.fst ++ [p] := by
  induction m with
  | nil => simp [hist2dInsert]
  | cons e rest ih =>
    obtain ⟨q, w⟩ := e
    by_cases hq : q = p
    · subst hq
      simp [hist2dInsert]
    · rw [hist2dInsert, if_neg hq, List.map_cons, List.map_cons, ih]
      by_cases hp : p ∈ rest.map Prod.fst
      · rw [if_pos hp, if_pos (List.mem_cons_of_mem _ hp)]
      · have hnotin : p ∉ q :: rest.map Prod.fst := by
          intro hmem
          rcases List.mem_cons.1 hmem with h | h
          · exact hq h.symm
          · exact hp h
        rw [if_neg hp, if_neg hnotin]
        simp

theorem hist2dGo_keys_nodup :
    ∀ (ps : List (XYPoint ℤ)) (m : List (XYPoint ℤ × List Nat)) (i : Nat),
    (m.map Prod.fst).Nodup → ((hist2dGo m i ps).map Prod.fst).Nodup := by
  intro ps
  induction ps with
  | nil =>
    intro m i h
    exact h
  | cons p ps ih =>
    intro m i h
    rw [hist2dGo]
    refine ih _ _ ?_
    rw [hist2dInsert_keys]
    split
    · exact h
    · rename_i hp
      simp [List.nodup_append, h, hp]

theorem hist2d_keys_nodup (q : List (XYPoint ℤ)) :
    ((hist2d q).map Prod.fst).Nodup :=
  hist2dGo_keys_nodup q [] 0 (by simp)

theorem hist2dInsert_lookup_self (m : List (XYPoint ℤ × List Nat))
    (p : XYPoint ℤ) (i : Nat) :
    lookupCellList (hist2dInsert m p i) p =
      some ((lookupCellList m p).getD [] ++ [i]) := by
  induction m with
  | nil => simp [hist2dInsert, lookupCellList]
  | cons e rest ih =>
    obtain ⟨q, w⟩ := e
    by_cases hq : q = p
    · subst hq
      simp [hist2dInsert, lookupCellList]
    · rw [hist2dInsert, if_neg hq, lookupCellList, if_neg hq, lookupCellList,
        if_neg hq]
      exact ih

theorem hist2dInsert_lookup_ne (m : List (XYPoint ℤ × List Nat))
    (p c : XYPoint ℤ) (i : Nat) (h : c ≠ p) :
    lookupCellList (hist2dInsert m p i) c = lookupCellList m c := by
  have hpc : ¬(p = c) := fun hh => h hh.symm
  induction m with
  | nil =>
    simp [hist2dInsert, lookupCellList, hpc]
  | cons e rest ih =>
    obtain ⟨q, w⟩ := e
    by_cases hq : q = p
    · subst hq
      rw [hist2dInsert, if_pos rfl, lookupCellList, if_neg hpc,
        lookupCellList, if_neg hpc]
    · rw [hist2dInsert, if_neg hq]
      by_cases hqc : q = c
      · subst hqc
        rw [lookupCellList, if_pos rfl, lookupCellList, if_pos rfl]
      · rw [lookupCellList, if_neg hqc, lookupCellList, if_neg hqc]
        exact ih

theorem hist2dGo_count (c : XYPoint ℤ) :
    ∀ (ps : List (XYPoint ℤ)) (m : List (XYPoint ℤ × List Nat)) (i : Nat),
    ((lookupCellList (hist2dGo m i ps) c).map List.length).getD 0 =
      ((lookupCellList m c).map List.length).getD 0 + countCell ps c ∧
    ((lookupCellList (hist2dGo m i ps) c).isSome =
      ((lookupCellList m c).isSome || decide (c ∈ ps))) := by
  intro ps
  induction ps with
  | nil =>
    intro m i
    simp [hist2dGo, countCell]
  | cons p ps ih =>
    intro m i
    rw [hist2dGo]
    obtain ⟨ih1, ih2⟩ := ih (hist2dInsert m p i) (i + 1)
    by_cases hcp : c = p
    · subst hcp
      rw [ih1, ih2, hist2dInsert_lookup_self]
      constructor
      · have hcnt : countCell (c :: ps) c = countCell ps c + 1 := by
          simp [countCell, List.countP_cons]
        rw [hcnt]
        cases hL : lookupCellList m c <;> simp [hL] <;> omega
      · simp
    · rw [ih1, ih2, hist2dInsert_lookup_ne m p c i hcp]
      constructor
      · have hpc2 : ¬(p = c) := fun hh => hcp hh.symm
        have hcnt : countCell (p :: ps) c = countCell ps c := by
          simp [countCell, List.countP_cons, hpc2]
        rw [hcnt]
      · simp [hcp]

theorem hist2d_count (q : List (XYPoint ℤ)) (c : XYPoint ℤ) :
    ((lookupCellList (hist2d q) c).map List.length).getD 0 = countCell q c ∧
    ((lookupCellList (hist2d q) c).isSome ↔ c ∈ q) := by
  obtain ⟨h1, h2⟩ := hist2dGo_count c q [] 0
  rw [hist2d]
  constructor
  · rw [h1]
    simp [lookupCellList]
  · rw [h2]
    simp [lookupCellList]

theorem buildLabelMap_isSome (minSize : Nat) (m : List (XYPoint ℤ × List Nat))
    (c : XYPoint ℤ) : ∀ label0 : Nat,
    ((lookupCell (buildLabelMapGo minSize label0 m) c).isSome ↔
      ∃ v, (c, v) ∈ m ∧ minSize ≤ v.length) := by
  induction m with
  | nil =>
    intro l0
    simp [buildLabelMapGo, lookupCell]
  | cons e rest ih =>
    obtain ⟨p, v⟩ := e
    intro l0
    rw [buildLabelMapGo]
    by_cases hv : minSize ≤ v.length
    · rw [if_pos hv]
      by_cases hpc : p = c
      · subst hpc
        rw [lookupCell, if_pos rfl]
        constructor
        · intro _
          exact ⟨v, List.mem_cons_self _ _, hv⟩
        · intro _
          rfl
      · rw [lookupCell, if_neg hpc, ih (l0 + 1)]
        constructor
        · rintro ⟨w, hw, hlen⟩
          exact ⟨w, List.mem_cons_of_mem _ hw, hlen⟩
        · rintro ⟨w, hw, hlen⟩
          rcases List.mem_cons.1 hw with h | h
          · rw [Prod.mk.injEq] at h
            exact absurd h.1.symm hpc
          · exact ⟨w, h, hlen⟩
    · rw [if_neg hv, ih l0]
      constructor
      · rintro ⟨w, hw, hlen⟩
        exact ⟨w, List.mem_cons_of_mem _ hw, hlen⟩
      · rintro ⟨w, hw, hlen⟩
        rcases List.mem_cons.1 hw with h | h
        · rw [Prod.mk.injEq] at h
          obtain ⟨h1, h2⟩ := h
          subst h2
          exact absurd hlen hv
        · exact ⟨w, h, hlen⟩

/-- The per-run labelling rule of `label_cluster_map`: a point receives a
label (i.e. not `-1`) exactly when its quantized cell holds at least
`min_size` points — for any `HashMap` iteration order, i.e. any
permutation `m` of the canonical histogram. -/
theorem labelClusterMap_getD_ne_neg1 (q : List (XYPoint ℤ))
    (m : List (XYPoint ℤ × List Nat)) (minSize : Nat) (hmin : 1 ≤ minSize)
    (hm : m.Perm (hist2d q)) (i : Nat) (hi : i < q.length) :
    ((labelClusterMap q m minSize).getD i 0 ≠ -1 ↔
      minSize ≤ countCell q (q.getD i ⟨0, 0⟩)) := by
  have hcell : q.getD i ⟨0, 0⟩ = q[i] := by
    rw [List.getD_eq_getElem?_getD, List.getElem?_eq_getElem hi]
    rfl
  have hentry : (labelClusterMap q m minSize).getD i 0 =
      (match lookupCell (buildLabelMapGo minSize 0 m) q[i] with
       | some g => (g : Int)
       | none => -1) := by
    rw [labelClusterMap, List.getD_eq_getElem?_getD, List.getElem?_map,
      List.getElem?_eq_getElem hi]
    rfl
  rw [hentry, hcell]
  have hiff := buildLabelMap_isSome minSize m q[i] 0
  constructor
  · intro hne
    rcases hL : lookupCell (buildLabelMapGo minSize 0 m) q[i] with _ | g
    · rw [hL] at hne
      simp at hne
    · have hsome : (lookupCell (buildLabelMapGo minSize 0 m) q[i]).isSome = true := by
        rw [hL]
        rfl
      obtain ⟨v, hvm, hvlen⟩ := hiff.1 hsome
      have hvh : (q[i], v) ∈ hist2d q := hm.mem_iff.1 hvm
      have hlk := mem_lookupCellList (hist2d_keys_nodup q) hvh
      have hcnt := (hist2d_count q q[i]).1
      rw [hlk] at hcnt
      simp only [Option.map_some', Option.getD_some] at hcnt
      rw [← hcnt]
      exact hvlen
  · intro hcnt
    have hpos : 0 < countCell q q[i] := by omega
    have hmem : q[i] ∈ q := by
      rw [countCell, List.countP_pos_iff] at hpos
      obtain ⟨d, hd, hdec⟩ := hpos
      rw [decide_eq_true_eq] at hdec
      rwa [← hdec]
    have hsome : (lookupCellList (hist2d q) q[i]).isSome :=
      (hist2d_count q q[i]).2.2 hmem
    rcases hL : lookupCellList (hist2d q) q[i] with _ | v
    · rw [hL] at hsome
      cases hsome
    · have hvh : (q[i], v) ∈ hist2d q := lookupCellList_mem hL
      have hvm : (q[i], v) ∈ m := hm.mem_iff.2 hvh
      have hcnt2 := (hist2d_count q q[i]).1
      rw [hL] at hcnt2
      simp only [Option.map_some', Option.getD_some] at hcnt2
      have hsome2 := hiff.2 ⟨v, hvm, by omega⟩
      rcases hL2 : lookupCell (buildLabelMapGo minSize 0 m) q[i] with _ | g
      · rw [hL2] at hsome2
        cases hsome2
      · show (g : Int) ≠ -1
        omega

theorem mergeClusterLabels_getD (l1 l2 l3 l4 : List Int) (i : Nat)
    (hi : i < l1.length) :
    (mergeClusterLabels l1 l2 l3 l4).getD i 0 =
      if l1.getD i 0 ≠ -1 then l1.getD i 0
      else if l2.getD i 0 ≠ -1 then l2.getD i 0
      else if l3.getD i 0 ≠ -1 then l3.getD i 0
      else if l4.getD i 0 ≠ -1 then l4.getD i 0
      else -1 := by
  rw [mergeClusterLabels, List.getD_eq_getElem?_getD, List.getElem?_map,
    List.getElem?_range hi]
  rfl

/-- C7: the Hotspot2D primitive.  Each of the four runs quantizes a
(shifted) copy of the input to cells `(round(x/eps), round(y/eps))` — the
shifts being none, `(+eps/2, 0)`, `(0, +eps/2)`, `(+eps/2, +eps/2)` — and
labels a point exactly when its cell holds at least `min_weight` points
(for any `HashMap` iteration order `m1..m4`); the final label of each
point is the first non-`(-1)` label among the four runs in that order,
and is `-1` exactly when all four runs give `-1`.
`findClustersHotspot2d` is this merge at the canonical histograms. -/
theorem hotspot_four_shift_merge (pts : List (XYPoint ℚ)) (eps : ℚ)
    (minSize : Nat) (hmin : 1 ≤ minSize)
    (m1 m2 m3 m4 : List (XYPoint ℤ × List Nat))
    (hm1 : m1.Perm (hist2d (quantize pts eps)))
    (hm2 : m2.Perm (hist2d (quantize (shiftPoints (eps / 2) 0 pts) eps)))
    (hm3 : m3.Perm (hist2d (quantize (shiftPoints 0 (eps / 2) pts) eps)))
    (hm4 : m4.Perm (hist2d (quantize (shiftPoints (eps / 2) (eps / 2) pts) eps)))
    (i : Nat) (hi : i < pts.length) :
    ((labelClusterMap (quantize pts eps) m1 minSize).getD i 0 ≠ -1 ↔
      minSize ≤ countCell (quantize pts eps) ((quantize pts eps).getD i ⟨0, 0⟩)) ∧
    ((labelClusterMap (quantize (shiftPoints (eps / 2) 0 pts) eps) m2 minSize).getD i 0 ≠ -1 ↔
      minSize ≤ countCell (quantize (shiftPoints (eps / 2) 0 pts) eps)
        ((quantize (shiftPoints (eps / 2) 0 pts) eps).getD i ⟨0, 0⟩)) ∧
    ((labelClusterMap (quantize (shiftPoints 0 (eps / 2) pts) eps) m3 minSize).getD i 0 ≠ -1 ↔
      minSize ≤ countCell (quantize (shiftPoints 0 (eps / 2) pts) eps)
        ((quantize (shiftPoints 0 (eps / 2) pts) eps).getD i ⟨0, 0⟩)) ∧
    ((labelClusterMap (quantize (shiftPoints (eps / 2) (eps / 2) pts) eps) m4 minSize).getD i 0 ≠ -1 ↔
      minSize ≤ countCell (quantize (shiftPoints (eps / 2) (eps / 2) pts) eps)
        ((quantize (shiftPoints (eps / 2) (eps / 2) pts) eps).getD i ⟨0, 0⟩)) ∧
    ((mergeClusterLabels
        (labelClusterMap (quantize pts eps) m1 minSize)
        (labelClusterMap (quantize (shiftPoints (eps / 2) 0 pts) eps) m2 minSize)
        (labelClusterMap (quantize (shiftPoints 0 (eps / 2) pts) eps) m3 minSize)
        (labelClusterMap (quantize (shiftPoints (eps / 2) (eps / 2) pts) eps) m4 minSize)).getD i 0 =
      if (labelClusterMap (quantize pts eps) m1 minSize).getD i 0 ≠ -1 then
        (labelClusterMap (quantize pts eps) m1 minSize).getD i 0
      else if (labelClusterMap (quantize (shiftPoints (eps / 2) 0 pts) eps) m2 minSize).getD i 0 ≠ -1 then
        (labelClusterMap (quantize (shiftPoints (eps / 2) 0 pts) eps) m2 minSize).getD i 0
      else if (labelClusterMap (quantize (shiftPoints 0 (eps / 2) pts) eps) m3 minSize).getD i 0 ≠ -1 then
        (labelClusterMap (quantize (shiftPoints 0 (eps / 2) pts) eps) m3 minSize).getD i 0
      else if (labelClusterMap (quantize (shiftPoints (eps / 2) (eps / 2) pts) eps) m4 minSize).getD i 0 ≠ -1 then
        (labelClusterMap (quantize (shiftPoints (eps / 2) (eps / 2) pts) eps) m4 minSize).getD i 0
      else -1) ∧
    findClustersHotspot2d pts eps minSize =
      mergeClusterLabels
        (labelClusterMap (quantize pts eps) (hist2d (quantize pts eps)) minSize)
        (labelClusterMap (quantize (shiftPoints (eps / 2) 0 pts) eps)
          (hist2d (quantize (shiftPoints (eps / 2) 0 pts) eps)) minSize)
        (labelClusterMap (quantize (shiftPoints 0 (eps / 2) pts) eps)
          (hist2d (quantize (shiftPoints 0 (eps / 2) pts) eps)) minSize)
        (labelClusterMap (quantize (shiftPoints (eps / 2) (eps / 2) pts) eps)
          (hist2d (quantize (shiftPoints (eps / 2) (eps / 2) pts) eps)) minSize) := by
  have hq1len : (quantize pts eps).length = pts.length := by simp [quantize]
  have hq2len : (quantize (shiftPoints (eps / 2) 0 pts) eps).length = pts.length := by
    simp [quantize, shiftPoints]
  have hq3len : (quantize (shiftPoints 0 (eps / 2) pts) eps).length = pts.length := by
    simp [quantize, shiftPoints]
  have hq4len : (quantize (shiftPoints (eps / 2) (eps / 2) pts) eps).length = pts.length := by
    simp [quantize, shiftPoints]
  refine ⟨labelClusterMap_getD_ne_neg1 _ m1 minSize hmin hm1 i (by omega),
    labelClusterMap_getD_ne_neg1 _ m2 minSize hmin hm2 i (by omega),
    labelClusterMap_getD_ne_neg1 _ m3 minSize hmin hm3 i (by omega),
    labelClusterMap_getD_ne_neg1 _ m4 minSize hmin hm4 i (by omega),
    mergeClusterLabels_getD _ _ _ _ i (by rw [labelClusterMap_length]; omega),
    rfl⟩

/-- Witness for `hotspot_four_shift_merge`: the near-miss input at the
canonical histograms, point 4. -/
theorem hotspot_four_shift_merge_witness :
    ((labelClusterMap (quantize [⟨1, 0⟩, ⟨1, 0⟩, ⟨1, 0⟩, ⟨1, 1⟩, ⟨2, 0⟩, ⟨2, 0⟩, ⟨2, 0⟩, ⟨2, 0⟩] 1)
        (hist2d (quantize [⟨1, 0⟩, ⟨1, 0⟩, ⟨1, 0⟩, ⟨1, 1⟩, ⟨2, 0⟩, ⟨2, 0⟩, ⟨2, 0⟩, ⟨2, 0⟩] 1)) 4).getD 4 0 ≠ -1 ↔
      4 ≤ countCell (quantize [⟨1, 0⟩, ⟨1, 0⟩, ⟨1, 0⟩, ⟨1, 1⟩, ⟨2, 0⟩, ⟨2, 0⟩, ⟨2, 0⟩, ⟨2, 0⟩] 1)
        ((quantize [⟨1, 0⟩, ⟨1, 0⟩, ⟨1, 0⟩, ⟨1, 1⟩, ⟨2, 0⟩, ⟨2, 0⟩, ⟨2, 0⟩, ⟨2, 0⟩] 1).getD 4 ⟨0, 0⟩)) :=
  (hotspot_four_shift_merge [⟨1, 0⟩, ⟨1, 0⟩, ⟨1, 0⟩, ⟨1, 1⟩, ⟨2, 0⟩, ⟨2, 0⟩, ⟨2, 0⟩, ⟨2, 0⟩] 1 4
    (by norm_num) _ _ _ _ (List.Perm.refl _) (List.Perm.refl _) (List.Perm.refl _)
    (List.Perm.refl _) 4 (by norm_num)).1

/-- C2 (counterexample): at the concrete collinear input
`(0,0), (1,0), (2,0), (3,0)` with `eps = 2` (squared-Euclidean) and
`min_weight = 3`, the expansion pops index 3 while it is `Undefined`
with the sparse neighbourhood `[2, 3]`; the step leaves it `Undefined`
instead of labelling it `Border(1)` as the claim states, and the final
label vector is `[1, 1, 1, -1]`, not `[1, 1, 1, 1]`. -/
theorem dbscan_popped_sparse_neighbor_not_border :
    procOne (fun i => [[0, 1], [0, 1, 2], [1, 2, 3], [2, 3]].getD i []) 3 1
        [.noise, .core 1, .core 1, .undefined] 3 =
      ([.noise, .core 1, .core 1, .undefined], []) ∧
    ([DBScanClassification.noise, .core 1, .core 1, .undefined].getD 3 .undefined ≠
      .border 1) ∧
    exactNeighbors [⟨0, 0⟩, ⟨1, 0⟩, ⟨2, 0⟩, ⟨3, 0⟩] 2 3 = [2, 3] ∧
    dbscanCore (exactNeighbors [⟨0, 0⟩, ⟨1, 0⟩, ⟨2, 0⟩, ⟨3, 0⟩] 2) 3 4 =
      [1, 1, 1, -1] ∧
    ([1, 1, 1, -1] : List Int) ≠ [1, 1, 1, 1] := by
  have h0 : exactNeighbors [⟨0, 0⟩, ⟨1, 0⟩, ⟨2, 0⟩, ⟨3, 0⟩] (2 : ℚ) 0 = [0, 1] := by
    norm_num [exactNeighbors, sqDist, List.range_succ]
  have h1 : exactNeighbors [⟨0, 0⟩, ⟨1, 0⟩, ⟨2, 0⟩, ⟨3, 0⟩] (2 : ℚ) 1 = [0, 1, 2] := by
    norm_num [exactNeighbors, sqDist, List.range_succ]
  have h2 : exactNeighbors [⟨0, 0⟩, ⟨1, 0⟩, ⟨2, 0⟩, ⟨3, 0⟩] (2 : ℚ) 2 = [1, 2, 3] := by
    norm_num [exactNeighbors, sqDist, List.range_succ]
  have h3 : exactNeighbors [⟨0, 0⟩, ⟨1, 0⟩, ⟨2, 0⟩, ⟨3, 0⟩] (2 : ℚ) 3 = [2, 3] := by
    norm_num [exactNeighbors, sqDist, List.range_succ]
  refine ⟨by simp [procOne], by simp, h3, ?_, by simp⟩
  simp [dbscanCore, dbscanOuter, expandGo, procOne, classificationToLabel,
    h0, h1, h2, h3]

/-! ### Order-independence of the expansion (claim C4)

The neighbour oracle abstracts the spatial index's query order.  Two
oracles that return pointwise-permuted neighbour lists drive `dbscan`
to the same final label array. -/

/-- Canonical form of one expansion step. -/
theorem procOne_action (f : Nat → List Nat) (m k : Nat)
    (L : List DBScanClassification) (j : Nat) :
    procOne f m k L j =
      if j < L.length ∧ (L.getD j .undefined = .noise ∨ L.getD j .undefined = .undefined) then
        (if m ≤ (f j).length then (L.set j (.core k), (f j).reverse)
         else if L.getD j .undefined = .noise then (L.set j (.border k), [])
         else (L, []))
      else (L, []) := by
  by_cases hb : j < L.length
  · rcases hx : L.getD j .undefined with _ | _ | k' | k'
    · by_cases hd : m ≤ (f j).length
      · rw [procOne_undefined_dense f m k hb hx hd]
        simp [hb, hd]
      · rw [procOne_undefined_sparse f m k hx (by omega)]
        simp [hb, hd]
    · by_cases hd : m ≤ (f j).length
      · rw [procOne_noise_dense f m k hb hx hd]
        simp [hb, hd]
      · rw [procOne_noise_sparse f m k hb hx (by omega)]
        simp [hb, hd]
    · have hne1 : L.getD j .undefined ≠ .noise := by
        rw [hx]
        exact fun h => by cases h
      have hne2 : L.getD j .undefined ≠ .undefined := by
        rw [hx]
        exact fun h => by cases h
      rw [procOne_already f m k hne1 hne2]
      simp
    · have hne1 : L.getD j .undefined ≠ .noise := by
        rw [hx]
        exact fun h => by cases h
      have hne2 : L.getD j .undefined ≠ .undefined := by
        rw [hx]
        exact fun h => by cases h
      rw [procOne_already f m k hne1 hne2]
      simp
  · rw [procOne_oob f m k (by omega)]
    simp [hb]

/-- The two neighbour oracles act identically on labels and give
permuted pushes. -/
theorem procOne_congr (f g : Nat → List Nat) (hfg : ∀ i, (f i).Perm (g i))
    (m k : Nat) (L : List DBScanClassification) (j : Nat) :
    (procOne f m k L j).1 = (procOne g m k L j).1 ∧
    (procOne f m k L j).2.Perm (procOne g m k L j).2 := by
  have hlen : (g j).length = (f j).length := (hfg j).length_eq.symm
  have hrev : (f j).reverse.Perm ((g j).reverse) :=
    ((f j).reverse_perm.trans (hfg j)).trans (g j).reverse_perm.symm
  rw [procOne_action f, procOne_action g, hlen]
  split_ifs <;> exact ⟨rfl, by first | exact hrev | exact List.Perm.refl _⟩

theorem countActive_set_lt2 {L : List DBScanClassification} {j : Nat}
    (hj : j < L.length) (v : DBScanClassification) (hv : v.isOpenLabel = false)
    (hcur : (L.getD j .undefined).isOpenLabel = true) :
    countActive (L.set j v) < countActive L := by
  have hgd : L.getD j .undefined = L[j] := by
    simp [List.getD_eq_getElem?_getD, List.getElem?_eq_getElem hj]
  rw [hgd] at hcur
  unfold countActive
  rw [List.set_eq_take_cons_drop _ hj]
  conv_rhs => rw [show L = L.take j ++ L.drop j from (List.take_append_drop j L).symm]
  rw [List.drop_eq_getElem_cons hj]
  rw [List.countP_append, List.countP_append, List.countP_cons, List.countP_cons]
  simp [hcur, hv]

theorem procOne_classify (f : Nat → List Nat) (m k : Nat)
    (L : List DBScanClassification) (j : Nat) :
    (j < L.length ∧ (L.getD j .undefined = .noise ∨ L.getD j .undefined = .undefined) ∧
      m ≤ (f j).length ∧ procOne f m k L j = (L.set j (.core k), (f j).reverse)) ∨
    (j < L.length ∧ L.getD j .undefined = .noise ∧ ¬m ≤ (f j).length ∧
      procOne f m k L j = (L.set j (.border k), [])) ∨
    ((¬(j < L.length ∧ (L.getD j .undefined = .noise ∨ L.getD j .undefined = .undefined)) ∨
        (L.getD j .undefined = .undefined ∧ ¬m ≤ (f j).length)) ∧
      procOne f m k L j = (L, [])) := by
  rw [procOne_action]
  split_ifs with h1 h2 h3
  · exact Or.inl ⟨h1.1, h1.2, h2, rfl⟩
  · exact Or.inr (Or.inl ⟨h1.1, h3, h2, rfl⟩)
  · refine Or.inr (Or.inr ⟨Or.inr ⟨?_, h2⟩, rfl⟩)
    rcases h1.2 with h | h
    · exact absurd h h3
    · exact h
  · exact Or.inr (Or.inr ⟨Or.inl h1, rfl⟩)

theorem procOne_eval_push (f : Nat → List Nat) (m k : Nat)
    (M : List DBScanClassification) (j : Nat) (hb : j < M.length)
    (ho : M.getD j .undefined = .noise ∨ M.getD j .undefined = .undefined)
    (hd : m ≤ (f j).length) :
    procOne f m k M j = (M.set j (.core k), (f j).reverse) := by
  rcases ho with h | h
  · exact procOne_noise_dense f m k hb h hd
  · exact procOne_undefined_dense f m k hb h hd

theorem procOne_eval_border (f : Nat → List Nat) (m k : Nat)
    (M : List DBScanClassification) (j : Nat) (hb : j < M.length)
    (hn : M.getD j .undefined = .noise) (hd : ¬m ≤ (f j).length) :
    procOne f m k M j = (M.set j (.border k), []) :=
  procOne_noise_sparse f m k hb hn (by omega)

theorem procOne_eval_inert (f : Nat → List Nat) (m k : Nat)
    (M : List DBScanClassification) (j : Nat)
    (hc : ¬(j < M.length ∧ (M.getD j .undefined = .noise ∨ M.getD j .undefined = .undefined)) ∨
      (M.getD j .undefined = .undefined ∧ ¬m ≤ (f j).length)) :
    procOne f m k M j = (M, []) := by
  rcases hc with hc | ⟨hu, hd⟩
  · rw [procOne_action, if_neg hc]
  · exact procOne_undefined_sparse f m k hu (by omega)

theorem open_not_core (k : Nat) : (DBScanClassification.core k).isOpenLabel = false := rfl

theorem open_not_border (k : Nat) : (DBScanClassification.border k).isOpenLabel = false := rfl

theorem open_of_or {c : DBScanClassification}
    (h : c = .noise ∨ c = .undefined) : c.isOpenLabel = true := by
  rcases h with h | h <;> rw [h] <;> rfl

theorem inert_oracle {L : List DBScanClassification} {x : Nat}
    {f g : Nat → List Nat} {m : Nat} (hlen : (f x).length = (g x).length)
    (hc : ¬(x < L.length ∧ (L.getD x .undefined = .noise ∨
        L.getD x .undefined = .undefined)) ∨
      (L.getD x .undefined = .undefined ∧ ¬m ≤ (f x).length)) :
    ¬(x < L.length ∧ (L.getD x .undefined = .noise ∨
        L.getD x .undefined = .undefined)) ∨
      (L.getD x .undefined = .undefined ∧ ¬m ≤ (g x).length) := by
  rcases hc with h | ⟨h1, h2⟩
  · exact Or.inl h
  · exact Or.inr ⟨h1, by omega⟩

theorem inert_transport {L : List DBScanClassification} {x p : Nat}
    (hne : p ≠ x) (v : DBScanClassification) {f g : Nat → List Nat} {m : Nat}
    (hlen : (f x).length = (g x).length)
    (hc : ¬(x < L.length ∧ (L.getD x .undefined = .noise ∨
        L.getD x .undefined = .undefined)) ∨
      (L.getD x .undefined = .undefined ∧ ¬m ≤ (f x).length)) :
    ¬(x < (L.set p v).length ∧ ((L.set p v).getD x .undefined = .noise ∨
        (L.set p v).getD x .undefined = .undefined)) ∨
      ((L.set p v).getD x .undefined = .undefined ∧ ¬m ≤ (g x).length) := by
  rw [List.length_set, getD_set_ne hne]
  rcases hc with h | ⟨h1, h2⟩
  · exact Or.inl h
  · exact Or.inr ⟨h1, by omega⟩

theorem expandGo_perm_aux (a : Nat) : ∀ b : Nat, ∀ s₁ s₂ : List Nat, s₁.Perm s₂ →
    ∀ f g : Nat → List Nat, (∀ i, (f i).Perm (g i)) →
    ∀ (m k : Nat) (L : List DBScanClassification),
    countActive L < a → s₁.length < b →
    expandGo f m k L s₁ = expandGo g m k L s₂ := by
  induction a using Nat.strong_induction_on with
  | _ a IHa =>
  intro b
  induction b using Nat.strong_induction_on with
  | _ b IHb =>
  intro s₁ s₂ hperm
  induction hperm with
  | nil =>
    intro f g hfg m k L ha hb
    rw [expandGo_nil, expandGo_nil]
  | cons j hp ihp =>
    intro f g hfg m k L ha hb
    rw [expandGo_cons, expandGo_cons]
    obtain ⟨hcg1, hcg2⟩ := procOne_congr f g hfg m k L j
    rw [← hcg1]
    rcases procOne_classify f m k L j with ⟨hjb, hjo, hjd, hjeq⟩ |
      ⟨hjb, hjn, hjd, hjeq⟩ | ⟨hjc, hjeq⟩
    · have hlt : countActive (procOne f m k L j).1 < countActive L := by
        rw [hjeq]
        exact countActive_set_lt2 hjb _ (open_not_core k) (open_of_or hjo)
      exact IHa (countActive L) ha _ _ _ (hcg2.append hp) f g hfg m k _ hlt
        (Nat.lt_succ_self _)
    · have hlt : countActive (procOne f m k L j).1 < countActive L := by
        rw [hjeq]
        exact countActive_set_lt2 hjb _ (open_not_border k) (by rw [hjn]; rfl)
      exact IHa (countActive L) ha _ _ _ (hcg2.append hp) f g hfg m k _ hlt
        (Nat.lt_succ_self _)
    · have hgnil : (procOne g m k L j).2 = [] := by
        rw [hjeq] at hcg2
        exact hcg2.symm.eq_nil
      rw [hjeq, hgnil]
      simp only [List.nil_append]
      exact ihp f g hfg m k L ha (by simp at hb; omega)
  | trans hp1 hp2 ih1 ih2 =>
    intro f g hfg m k L ha hb
    refine (ih1 f g hfg m k L ha hb).trans (ih2 g g (fun i => List.Perm.refl _) m k L ha ?_)
    rw [← hp1.length_eq]
    exact hb
  | swap x y t =>
    intro f g hfg m k L ha hb
    simp only [List.length_cons] at hb
    by_cases hxy : x = y
    · subst hxy
      rw [expandGo_cons, expandGo_cons]
      obtain ⟨hcg1, hcg2⟩ := procOne_congr f g hfg m k L x
      rw [← hcg1]
      rcases procOne_classify f m k L x with ⟨hjb, hjo, hjd, hjeq⟩ |
        ⟨hjb, hjn, hjd, hjeq⟩ | ⟨hjc, hjeq⟩
      · have hlt : countActive (procOne f m k L x).1 < countActive L := by
          rw [hjeq]
          exact countActive_set_lt2 hjb _ (open_not_core k) (open_of_or hjo)
        exact IHa (countActive L) ha _ _ _ (hcg2.append (List.Perm.refl _)) f g
          hfg m k _ hlt (Nat.lt_succ_self _)
      · have hlt : countActive (procOne f m k L x).1 < countActive L := by
          rw [hjeq]
          exact countActive_set_lt2 hjb _ (open_not_border k) (by rw [hjn]; rfl)
        exact IHa (countActive L) ha _ _ _ (hcg2.append (List.Perm.refl _)) f g
          hfg m k _ hlt (Nat.lt_succ_self _)
      · have hgnil : (procOne g m k L x).2 = [] := by
          rw [hjeq] at hcg2
          exact hcg2.symm.eq_nil
        rw [hjeq, hgnil]
        simp only [List.nil_append]
        exact IHb (t.length + 2) (by omega) (x :: t) (x :: t) (List.Perm.refl _)
          f g hfg m k L ha (Nat.lt_succ_self _)
    · have hyx : y ≠ x := fun h => hxy (h.symm)
      have hxlen := (hfg x).length_eq
      have hylen := (hfg y).length_eq
      rw [expandGo_cons, expandGo_cons]
      rcases procOne_classify f m k L y with ⟨hyb, hyo, hyd, hyeq⟩ |
        ⟨hyb, hyn, hyd, hyeq⟩ | ⟨hyc, hyeq⟩ <;>
      rcases procOne_classify f m k L x with ⟨hxb, hxo, hxd, hxeq⟩ |
        ⟨hxb, hxn, hxd, hxeq⟩ | ⟨hxc, hxeq⟩
      -- (A_y, A_x)
      · rw [hyeq]
        rw [procOne_eval_push g m k L x hxb hxo (by omega)]
        have hstep1 : expandGo f m k (L.set y (.core k)) ((f y).reverse ++ x :: t) =
            expandGo f m k (L.set y (.core k)) (x :: ((f y).reverse ++ t)) := by
          refine IHa (countActive L) ha (((f y).reverse ++ x :: t).length + 1) _ _
            List.perm_middle f f (fun i => List.Perm.refl _) m k _ ?_ (by omega)
          exact countActive_set_lt2 hyb _ (open_not_core k) (open_of_or hyo)
        have hstep2 : expandGo g m k (L.set x (.core k)) ((g x).reverse ++ y :: t) =
            expandGo g m k (L.set x (.core k)) (y :: ((g x).reverse ++ t)) := by
          refine IHa (countActive L) ha (((g x).reverse ++ y :: t).length + 1) _ _
            List.perm_middle g g (fun i => List.Perm.refl _) m k _ ?_ (by omega)
          exact countActive_set_lt2 hxb _ (open_not_core k) (open_of_or hxo)
        rw [hstep1, hstep2, expandGo_cons, expandGo_cons]
        rw [procOne_eval_push f m k (L.set y (.core k)) x
          (by simp [List.length_set]; omega)
          (by rw [getD_set_ne hyx]; exact hxo) hxd]
        rw [procOne_eval_push g m k (L.set x (.core k)) y
          (by simp [List.length_set]; omega)
          (by rw [getD_set_ne hxy]; exact hyo) (by omega)]
        have hcomm : (L.set y (.core k)).set x (.core k) =
            (L.set x (.core k)).set y (.core k) := List.set_comm _ _ _ hyx
        rw [hcomm]
        have hp1 : ((f x).reverse ++ ((f y).reverse ++ t)).Perm
            (((g y).reverse ++ (g x).reverse) ++ t) := by
          rw [← List.append_assoc]
          refine List.Perm.append ?_ (List.Perm.refl t)
          have hppa : ((f x).reverse ++ (f y).reverse).Perm
              ((g x).reverse ++ (g y).reverse) :=
            List.Perm.append
              (((f x).reverse_perm.trans (hfg x)).trans (g x).reverse_perm.symm)
              (((f y).reverse_perm.trans (hfg y)).trans (g y).reverse_perm.symm)
          exact hppa.trans List.perm_append_comm
        have hp2 : (((g y).reverse ++ (g x).reverse) ++ t).Perm
            ((g y).reverse ++ ((g x).reverse ++ t)) := by
          rw [List.append_assoc]
        have hstkperm : ((f x).reverse ++ ((f y).reverse ++ t)).Perm
            ((g y).reverse ++ ((g x).reverse ++ t)) := hp1.trans hp2
        have hmeas : countActive ((L.set x (.core k)).set y (.core k)) <
            countActive L := by
          have h2 : countActive ((L.set x (.core k)).set y (.core k)) <
              countActive (L.set x (.core k)) := by
            refine countActive_set_lt2 (by simp [List.length_set]; omega) _
              (open_not_core k) ?_
            rw [getD_set_ne hxy]
            exact open_of_or hyo
          have h3 : countActive (L.set x (.core k)) < countActive L :=
            countActive_set_lt2 hxb _ (open_not_core k) (open_of_or hxo)
          omega
        exact IHa (countActive L) ha _ _ _ hstkperm f g hfg m k _ hmeas
          (Nat.lt_succ_self _)
      -- (A_y, B_x): y pushes core, x writes border
      · rw [hyeq, procOne_eval_border g m k L x hxb hxn (by omega)]
        simp only [List.nil_append]
        have hstep1 : expandGo f m k (L.set y (.core k)) ((f y).reverse ++ x :: t) =
            expandGo f m k (L.set y (.core k)) (x :: ((f y).reverse ++ t)) := by
          refine IHa (countActive L) ha (((f y).reverse ++ x :: t).length + 1) _ _
            List.perm_middle f f (fun i => List.Perm.refl _) m k _ ?_ (by omega)
          exact countActive_set_lt2 hyb _ (open_not_core k) (open_of_or hyo)
        rw [hstep1, expandGo_cons, expandGo_cons]
        rw [procOne_eval_border f m k (L.set y (.core k)) x
          (by simp [List.length_set]; omega)
          (by rw [getD_set_ne hyx]; exact hxn) hxd]
        rw [procOne_eval_push g m k (L.set x (.border k)) y
          (by simp [List.length_set]; omega)
          (by rw [getD_set_ne hxy]; exact hyo) (by omega)]
        simp only [List.nil_append]
        have hcomm : (L.set y (.core k)).set x (.border k) =
            (L.set x (.border k)).set y (.core k) := List.set_comm _ _ _ hyx
        rw [hcomm]
        have hstk : ((f y).reverse ++ t).Perm ((g y).reverse ++ t) :=
          List.Perm.append
            (((f y).reverse_perm.trans (hfg y)).trans (g y).reverse_perm.symm)
            (List.Perm.refl t)
        have hmeas : countActive ((L.set x (.border k)).set y (.core k)) <
            countActive L := by
          have h2 : countActive ((L.set x (.border k)).set y (.core k)) <
              countActive (L.set x (.border k)) := by
            refine countActive_set_lt2 (by simp [List.length_set]; omega) _
              (open_not_core k) ?_
            rw [getD_set_ne hxy]
            exact open_of_or hyo
          have h3 : countActive (L.set x (.border k)) < countActive L :=
            countActive_set_lt2 hxb _ (open_not_border k) (by rw [hxn]; rfl)
          omega
        exact IHa (countActive L) ha _ _ _ hstk f g hfg m k _ hmeas
          (Nat.lt_succ_self _)
      -- (A_y, C_x): y pushes core, x inert
      · rw [hyeq, procOne_eval_inert g m k L x (inert_oracle hxlen hxc)]
        simp only [List.nil_append]
        have hstep1 : expandGo f m k (L.set y (.core k)) ((f y).reverse ++ x :: t) =
            expandGo f m k (L.set y (.core k)) (x :: ((f y).reverse ++ t)) := by
          refine IHa (countActive L) ha (((f y).reverse ++ x :: t).length + 1) _ _
            List.perm_middle f f (fun i => List.Perm.refl _) m k _ ?_ (by omega)
          exact countActive_set_lt2 hyb _ (open_not_core k) (open_of_or hyo)
        rw [hstep1, expandGo_cons, expandGo_cons]
        rw [procOne_eval_inert f m k (L.set y (.core k)) x
          (inert_transport hyx _ rfl hxc)]
        rw [procOne_eval_push g m k L y hyb hyo (by omega)]
        simp only [List.nil_append]
        have hstk : ((f y).reverse ++ t).Perm ((g y).reverse ++ t) :=
          List.Perm.append
            (((f y).reverse_perm.trans (hfg y)).trans (g y).reverse_perm.symm)
            (List.Perm.refl t)
        have hmeas : countActive (L.set y (.core k)) < countActive L :=
          countActive_set_lt2 hyb _ (open_not_core k) (open_of_or hyo)
        exact IHa (countActive L) ha _ _ _ hstk f g hfg m k _ hmeas
          (Nat.lt_succ_self _)
      -- (B_y, A_x): y writes border, x pushes core
      · rw [hyeq, procOne_eval_push g m k L x hxb hxo (by omega)]
        simp only [List.nil_append]
        have hstep2 : expandGo g m k (L.set x (.core k)) ((g x).reverse ++ y :: t) =
            expandGo g m k (L.set x (.core k)) (y :: ((g x).reverse ++ t)) := by
          refine IHa (countActive L) ha (((g x).reverse ++ y :: t).length + 1) _ _
            List.perm_middle g g (fun i => List.Perm.refl _) m k _ ?_ (by omega)
          exact countActive_set_lt2 hxb _ (open_not_core k) (open_of_or hxo)
        rw [hstep2, expandGo_cons, expandGo_cons]
        rw [procOne_eval_push f m k (L.set y (.border k)) x
          (by simp [List.length_set]; omega)
          (by rw [getD_set_ne hyx]; exact hxo) hxd]
        rw [procOne_eval_border g m k (L.set x (.core k)) y
          (by simp [List.length_set]; omega)
          (by rw [getD_set_ne hxy]; exact hyn) (by omega)]
        simp only [List.nil_append]
        have hcomm : (L.set y (.border k)).set x (.core k) =
            (L.set x (.core k)).set y (.border k) := List.set_comm _ _ _ hyx
        rw [hcomm]
        have hstk : ((f x).reverse ++ t).Perm ((g x).reverse ++ t) :=
          List.Perm.append
            (((f x).reverse_perm.trans (hfg x)).trans (g x).reverse_perm.symm)
            (List.Perm.refl t)
        have hmeas : countActive ((L.set x (.core k)).set y (.border k)) <
            countActive L := by
          have h2 : countActive ((L.set x (.core k)).set y (.border k)) <
              countActive (L.set x (.core k)) := by
            refine countActive_set_lt2 (by simp [List.length_set]; omega) _
              (open_not_border k) ?_
            rw [getD_set_ne hxy, hyn]
            rfl
          have h3 : countActive (L.set x (.core k)) < countActive L :=
            countActive_set_lt2 hxb _ (open_not_core k) (open_of_or hxo)
          omega
        exact IHa (countActive L) ha _ _ _ hstk f g hfg m k _ hmeas
          (Nat.lt_succ_self _)
      -- (B_y, B_x): both write border
      · rw [hyeq, procOne_eval_border g m k L x hxb hxn (by omega)]
        simp only [List.nil_append]
        rw [expandGo_cons, expandGo_cons]
        rw [procOne_eval_border f m k (L.set y (.border k)) x
          (by simp [List.length_set]; omega)
          (by rw [getD_set_ne hyx]; exact hxn) hxd]
        rw [procOne_eval_border g m k (L.set x (.border k)) y
          (by simp [List.length_set]; omega)
          (by rw [getD_set_ne hxy]; exact hyn) (by omega)]
        simp only [List.nil_append]
        have hcomm : (L.set y (.border k)).set x (.border k) =
            (L.set x (.border k)).set y (.border k) := List.set_comm _ _ _ hyx
        rw [hcomm]
        have hmeas : countActive ((L.set x (.border k)).set y (.border k)) <
            countActive L := by
          have h2 : countActive ((L.set x (.border k)).set y (.border k)) <
              countActive (L.set x (.border k)) := by
            refine countActive_set_lt2 (by simp [List.length_set]; omega) _
              (open_not_border k) ?_
            rw [getD_set_ne hxy, hyn]
            rfl
          have h3 : countActive (L.set x (.border k)) < countActive L :=
            countActive_set_lt2 hxb _ (open_not_border k) (by rw [hxn]; rfl)
          omega
        exact IHa (countActive L) ha _ _ _ (List.Perm.refl t) f g hfg m k _ hmeas
          (Nat.lt_succ_self _)
      -- (B_y, C_x): y writes border, x inert
      · rw [hyeq, procOne_eval_inert g m k L x (inert_oracle hxlen hxc)]
        simp only [List.nil_append]
        rw [expandGo_cons, expandGo_cons]
        rw [procOne_eval_inert f m k (L.set y (.border k)) x
          (inert_transport hyx _ rfl hxc)]
        rw [procOne_eval_border g m k L y hyb hyn (by omega)]
        simp only [List.nil_append]
        have hmeas : countActive (L.set y (.border k)) < countActive L :=
          countActive_set_lt2 hyb _ (open_not_border k) (by rw [hyn]; rfl)
        exact IHa (countActive L) ha _ _ _ (List.Perm.refl t) f g hfg m k _ hmeas
          (Nat.lt_succ_self _)
      -- (C_y, A_x): y inert, x pushes core
      · rw [hyeq, procOne_eval_push g m k L x hxb hxo (by omega)]
        simp only [List.nil_append]
        rw [expandGo_cons]
        rw [hxeq]
        have hstep2 : expandGo g m k (L.set x (.core k)) ((g x).reverse ++ y :: t) =
            expandGo g m k (L.set x (.core k)) (y :: ((g x).reverse ++ t)) := by
          refine IHa (countActive L) ha (((g x).reverse ++ y :: t).length + 1) _ _
            List.perm_middle g g (fun i => List.Perm.refl _) m k _ ?_ (by omega)
          exact countActive_set_lt2 hxb _ (open_not_core k) (open_of_or hxo)
        rw [hstep2, expandGo_cons]
        rw [procOne_eval_inert g m k (L.set x (.core k)) y
          (inert_transport hxy _ hylen hyc)]
        simp only [List.nil_append]
        have hstk : ((f x).reverse ++ t).Perm ((g x).reverse ++ t) :=
          List.Perm.append
            (((f x).reverse_perm.trans (hfg x)).trans (g x).reverse_perm.symm)
            (List.Perm.refl t)
        have hmeas : countActive (L.set x (.core k)) < countActive L :=
          countActive_set_lt2 hxb _ (open_not_core k) (open_of_or hxo)
        exact IHa (countActive L) ha _ _ _ hstk f g hfg m k _ hmeas
          (Nat.lt_succ_self _)
      -- (C_y, B_x): y inert, x writes border
      · rw [hyeq, procOne_eval_border g m k L x hxb hxn (by omega)]
        simp only [List.nil_append]
        rw [expandGo_cons, expandGo_cons]
        rw [hxeq]
        rw [procOne_eval_inert g m k (L.set x (.border k)) y
          (inert_transport hxy _ hylen hyc)]
        simp only [List.nil_append]
        have hmeas : countActive (L.set x (.border k)) < countActive L :=
          countActive_set_lt2 hxb _ (open_not_border k) (by rw [hxn]; rfl)
        exact IHa (countActive L) ha _ _ _ (List.Perm.refl t) f g hfg m k _ hmeas
          (Nat.lt_succ_self _)
      -- (C_y, C_x): both inert
      · rw [hyeq, procOne_eval_inert g m k L x (inert_oracle hxlen hxc)]
        simp only [List.nil_append]
        rw [expandGo_cons, expandGo_cons]
        rw [hxeq]
        rw [procOne_eval_inert g m k L y (inert_oracle hylen hyc)]
        simp only [List.nil_append]
        exact IHb (t.length + 1) (by omega) t t (List.Perm.refl t) f g hfg m k L ha
          (Nat.lt_succ_self _)

theorem expandGo_perm (f g : Nat → List Nat) (hfg : ∀ i, (f i).Perm (g i))
    (m k : Nat) (L : List DBScanClassification) (s₁ s₂ : List Nat)
    (hs : s₁.Perm s₂) : expandGo f m k L s₁ = expandGo g m k L s₂ :=
  expandGo_perm_aux (countActive L + 1) (s₁.length + 1) s₁ s₂ hs f g hfg m k L
    (Nat.lt_succ_self _) (Nat.lt_succ_self _)

theorem dbscanOuter_congr (f g : Nat → List Nat) (hfg : ∀ i, (f i).Perm (g i))
    (m n : Nat) : ∀ i k L, dbscanOuter f m n i k L = dbscanOuter g m n i k L := by
  intro i k L
  induction i, k, L using dbscanOuter.induct f m n with
  | case1 i k L hi hlab ih =>
    conv_lhs => rw [dbscanOuter]
    conv_rhs => rw [dbscanOuter]
    rw [if_pos hi, if_pos hi, if_pos hlab, if_pos hlab]
    exact ih
  | case2 i k L hi hlab hsparse ih =>
    have hg : (g i).length < m := by
      have := (hfg i).length_eq
      omega
    conv_lhs => rw [dbscanOuter]
    conv_rhs => rw [dbscanOuter]
    rw [if_pos hi, if_pos hi, if_neg hlab, if_neg hlab, if_pos hsparse, if_pos hg]
    exact ih
  | case3 i k L hi hlab hdense ih =>
    have hg : ¬(g i).length < m := by
      have := (hfg i).length_eq
      omega
    conv_lhs => rw [dbscanOuter]
    conv_rhs => rw [dbscanOuter]
    rw [if_pos hi, if_pos hi, if_neg hlab, if_neg hlab, if_neg hdense, if_neg hg]
    rw [← expandGo_perm f g hfg m ((k + 1) % 65536)
      (L.set i (.core ((k + 1) % 65536)))
      (f i).reverse (g i).reverse
      (((f i).reverse_perm.trans (hfg i)).trans (g i).reverse_perm.symm)]
    exact ih
  | case4 i k L hi =>
    conv_lhs => rw [dbscanOuter]
    conv_rhs => rw [dbscanOuter]
    rw [if_neg hi, if_neg hi]

theorem dbscanCore_congr (f g : Nat → List Nat)
    (hfg : ∀ i, (f i).Perm (g i)) (m n : Nat) :
    dbscanCore f m n = dbscanCore g m n := by
  unfold dbscanCore
  rw [dbscanOuter_congr f g hfg m n 0 0]

/-- C4: for a fixed point set and parameters, the DBSCAN output labels —
hence the cluster membership sets and the noise set — are the same for
every ordering of the spatial index's neighbourhood-query results: any
oracle returning a permutation of the canonical neighbour list at every
index yields exactly `findClustersDbscan`. -/
theorem dbscan_membership_order_invariant (points : List (XYPoint ℚ)) (eps : ℚ)
    (minSize : Nat) (N : Nat → List Nat)
    (hN : ∀ i, (N i).Perm (truncNeighbors points eps i)) :
    dbscanCore N minSize points.length = findClustersDbscan points eps minSize := by
  unfold findClustersDbscan
  exact dbscanCore_congr N _ hN minSize points.length

/-- Witness for C4: an oracle answering every query in reversed order
gives the same labels as the canonical one on a two-point set. -/
theorem dbscan_membership_order_invariant_witness :
    dbscanCore (fun i => (truncNeighbors [⟨0, 0⟩, ⟨1, 0⟩] 2 i).reverse) 1 2 =
      findClustersDbscan [⟨0, 0⟩, ⟨1, 0⟩] 2 1 :=
  dbscan_membership_order_invariant [⟨0, 0⟩, ⟨1, 0⟩] 2 1
    (fun i => (truncNeighbors [⟨0, 0⟩, ⟨1, 0⟩] 2 i).reverse)
    (fun i => (truncNeighbors [⟨0, 0⟩, ⟨1, 0⟩] 2 i).reverse_perm)

/-! ### The assembler: dense global ids (claim C5) and arc lengths (claim C6) -/

theorem asmStep_neg (dts : List ℚ) (st : AsmState) (i : Nat) (label : Int)
    (h : label < 0) : asmStep dts st i label = st := by
  unfold asmStep
  rw [if_pos h]

theorem asmStep_hit (dts : List ℚ) (st : AsmState) (i : Nat) (label : Int)
    (gid : Nat) (h : ¬label < 0) (hl : lookupLabel st.labelMap label = some gid) :
    asmStep dts st i label =
      { st with
        members := st.members ++ [⟨gid, i⟩]
        arcStarts := asmMinUpdate st.arcStarts gid (dts.getD i 0)
        arcEnds := asmMaxUpdate st.arcEnds gid (dts.getD i 0) } := by
  unfold asmStep
  rw [if_neg h, hl]

theorem asmStep_new (dts : List ℚ) (st : AsmState) (i : Nat) (label : Int)
    (h : ¬label < 0) (hl : lookupLabel st.labelMap label = none) :
    asmStep dts st i label =
      ⟨st.g + 1, st.labelMap ++ [(label, st.g + 1)],
       asmMinUpdate st.arcStarts (st.g + 1) (dts.getD i 0),
       asmMaxUpdate st.arcEnds (st.g + 1) (dts.getD i 0),
       st.clusterIds ++ [st.g + 1], st.members ++ [⟨st.g + 1, i⟩]⟩ := by
  unfold asmStep
  rw [if_neg h, hl]

theorem processLabels_ids (dts : List ℚ) :
    ∀ (ls : List Int) (st : AsmState) (i g0 : Nat),
    g0 ≤ st.g → st.clusterIds = List.range' (g0 + 1) (st.g - g0) →
    g0 ≤ (processLabels dts st i ls).g ∧
      (processLabels dts st i ls).clusterIds =
        List.range' (g0 + 1) ((processLabels dts st i ls).g - g0) := by
  intro ls
  induction ls with
  | nil =>
    intro st i g0 hle hids
    rw [processLabels]
    exact ⟨hle, hids⟩
  | cons l ls ih =>
    intro st i g0 hle hids
    rw [processLabels]
    by_cases hneg : l < 0
    · rw [asmStep_neg dts st i l hneg]
      exact ih st (i + 1) g0 hle hids
    · cases hl : lookupLabel st.labelMap l with
      | some gid =>
        rw [asmStep_hit dts st i l gid hneg hl]
        exact ih _ (i + 1) g0 hle hids
      | none =>
        rw [asmStep_new dts st i l hneg hl]
        refine ih _ (i + 1) g0 (le_trans hle (Nat.le_succ _)) ?_
        show st.clusterIds ++ [st.g + 1] = List.range' (g0 + 1) (st.g + 1 - g0)
        rw [hids]
        have h1 : st.g + 1 - g0 = (st.g - g0) + 1 := by omega
        have h2 : st.g + 1 = (g0 + 1) + (st.g - g0) := by omega
        rw [h1, h2, List.range'_1_concat]

theorem processResult_ids (dts : List ℚ) (g0 : Nat) (mems : List MemberRow)
    (r : GridSearchResult) :
    g0 ≤ (processResult dts g0 mems r).1 ∧
      (processResult dts g0 mems r).2.1.map ClusterRow.clusterId =
        List.range' (g0 + 1) ((processResult dts g0 mems r).1 - g0) := by
  unfold processResult
  have h := processLabels_ids dts r.clusterLabels ⟨g0, [], [], [], [], mems⟩ 0 g0
    (le_refl _) (by simp)
  refine ⟨h.1, ?_⟩
  simp only [List.map_map]
  rw [show (ClusterRow.clusterId ∘ fun gid => ClusterRow.mk gid r.vx r.vy
    ((lookupNat (processLabels dts ⟨g0, [], [], [], [], mems⟩ 0 r.clusterLabels).arcEnds gid).getD 0 -
     (lookupNat (processLabels dts ⟨g0, [], [], [], [], mems⟩ 0 r.clusterLabels).arcStarts gid).getD 0)) =
    id from rfl]
  rw [List.map_id]
  exact h.2

theorem assembleGo_ids (dts : List ℚ) :
    ∀ (rs : List GridSearchResult) (g : Nat) (rows : List ClusterRow)
      (mems : List MemberRow),
    rows.map ClusterRow.clusterId = List.range' 1 g →
    (assembleGo dts g rows mems rs).2.1.map ClusterRow.clusterId =
      List.range' 1 (assembleGo dts g rows mems rs).1 := by
  intro rs
  induction rs with
  | nil =>
    intro g rows mems h
    rw [assembleGo]
    exact h
  | cons r rs ih =>
    intro g rows mems h
    rw [assembleGo]
    apply ih
    rw [List.map_append, h, (processResult_ids dts g mems r).2]
    have hle := (processResult_ids dts g mems r).1
    set gq := (processResult dts g mems r).1 with hgq
    have h2 : g + 1 = 1 + 1 * g := by omega
    rw [h2, List.range'_append]
    congr 1
    omega

/-- C5: across the whole grid-search output the assembler's summary
table carries exactly the cluster ids `1, 2, ..., G` in order, where `G`
is the final value of the global counter: ids are dense starting at 1
and never repeated, so clusters from different `(vx, vy)` results never
share an id. -/
theorem assembler_cluster_ids_dense (dts : List ℚ)
    (results : List GridSearchResult) :
    (assemble dts results).2.1.map ClusterRow.clusterId =
      List.range' 1 (assemble dts results).1 := by
  unfold assemble
  exact assembleGo_ids dts results 0 [] [] (by simp)

theorem lookupNat_setEntry_self (m : List (Nat × ℚ)) (g : Nat) (v : ℚ) :
    lookupNat (setEntry m g v) g = some v := by
  induction m with
  | nil => simp [setEntry, lookupNat]
  | cons p rest ih =>
    obtain ⟨g0, v0⟩ := p
    by_cases h : g0 = g
    · simp [setEntry, lookupNat, h]
    · simp [setEntry, lookupNat, h, ih]

theorem lookupNat_setEntry_ne (m : List (Nat × ℚ)) (g g' : Nat) (v : ℚ)
    (h : g' ≠ g) : lookupNat (setEntry m g v) g' = lookupNat m g' := by
  have h2 : g ≠ g' := Ne.symm h
  induction m with
  | nil => simp [setEntry, lookupNat, h2]
  | cons p rest ih =>
    obtain ⟨g0, v0⟩ := p
    by_cases hg : g0 = g
    · subst hg
      simp [setEntry, lookupNat, h2]
    · simp [setEntry, lookupNat, hg, ih]

theorem asmMinUpdate_none (m : List (Nat × ℚ)) (gid : Nat) (dt : ℚ)
    (h : lookupNat m gid = none) :
    lookupNat (asmMinUpdate m gid dt) gid = some dt := by
  unfold asmMinUpdate
  rw [h]
  exact lookupNat_setEntry_self m gid dt

theorem asmMinUpdate_some (m : List (Nat × ℚ)) (gid : Nat) (v dt : ℚ)
    (h : lookupNat m gid = some v) :
    lookupNat (asmMinUpdate m gid dt) gid = some (min v dt) := by
  unfold asmMinUpdate
  rw [h]
  show lookupNat (if dt < v then setEntry m gid dt else m) gid = some (min v dt)
  split_ifs with hlt
  · rw [lookupNat_setEntry_self]
    rw [min_eq_right hlt.le]
  · rw [h, min_eq_left (le_of_not_lt hlt)]

theorem asmMinUpdate_ne (m : List (Nat × ℚ)) (gid g' : Nat) (dt : ℚ)
    (h : g' ≠ gid) :
    lookupNat (asmMinUpdate m gid dt) g' = lookupNat m g' := by
  unfold asmMinUpdate
  cases lookupNat m gid with
  | none => exact lookupNat_setEntry_ne m gid g' dt h
  | some v =>
    show lookupNat (if dt < v then setEntry m gid dt else m) g' = lookupNat m g'
    split_ifs
    · exact lookupNat_setEntry_ne m gid g' dt h
    · rfl

theorem asmMaxUpdate_none (m : List (Nat × ℚ)) (gid : Nat) (dt : ℚ)
    (h : lookupNat m gid = none) :
    lookupNat (asmMaxUpdate m gid dt) gid = some dt := by
  unfold asmMaxUpdate
  rw [h]
  exact lookupNat_setEntry_self m gid dt

theorem asmMaxUpdate_some (m : List (Nat × ℚ)) (gid : Nat) (v dt : ℚ)
    (h : lookupNat m gid = some v) :
    lookupNat (asmMaxUpdate m gid dt) gid = some (max v dt) := by
  unfold asmMaxUpdate
  rw [h]
  show lookupNat (if v < dt then setEntry m gid dt else m) gid = some (max v dt)
  split_ifs with hlt
  · rw [lookupNat_setEntry_self]
    rw [max_eq_right hlt.le]
  · rw [h, max_eq_left (le_of_not_lt hlt)]

theorem asmMaxUpdate_ne (m : List (Nat × ℚ)) (gid g' : Nat) (dt : ℚ)
    (h : g' ≠ gid) :
    lookupNat (asmMaxUpdate m gid dt) g' = lookupNat m g' := by
  unfold asmMaxUpdate
  cases lookupNat m gid with
  | none => exact lookupNat_setEntry_ne m gid g' dt h
  | some v =>
    show lookupNat (if v < dt then setEntry m gid dt else m) g' = lookupNat m g'
    split_ifs
    · exact lookupNat_setEntry_ne m gid g' dt h
    · rfl

theorem lookupLabel_mem (lm : List (Int × Nat)) (l : Int) (g : Nat)
    (h : lookupLabel lm l = some g) : (l, g) ∈ lm := by
  induction lm with
  | nil => cases h
  | cons p rest ih =>
    obtain ⟨l0, g0⟩ := p
    unfold lookupLabel at h
    split_ifs at h with he
    · subst he
      injection h with h
      subst h
      exact List.mem_cons_self _ _
    · exact List.mem_cons_of_mem _ (ih h)

theorem memberDts_append (dts : List ℚ) (mems : List MemberRow) (m0 : MemberRow)
    (gid : Nat) :
    memberDts dts (mems ++ [m0]) gid =
      memberDts dts mems gid ++
        (if m0.clusterId = gid then [dts.getD m0.obsIdx 0] else []) := by
  unfold memberDts
  rw [List.filter_append, List.map_append]
  congr 1
  by_cases h : m0.clusterId = gid <;> simp [h]

theorem memberDts_high (dts : List ℚ) (mems : List MemberRow) (gid g0 : Nat)
    (hm : ∀ m ∈ mems, m.clusterId ≤ g0) (hg : g0 < gid) :
    memberDts dts mems gid = [] := by
  unfold memberDts
  rw [List.filter_eq_nil.mpr]
  · rfl
  · intro m hmem
    have := hm m hmem
    simp only [beq_iff_eq]
    omega

theorem qListMin_concat (ts : List ℚ) (x : ℚ) (h : ts ≠ []) :
    qListMin (ts ++ [x]) = min (qListMin ts) x := by
  cases ts with
  | nil => cases h rfl
  | cons a as => simp [qListMin, List.foldl_append]

theorem qListMax_concat (ts : List ℚ) (x : ℚ) (h : ts ≠ []) :
    qListMax (ts ++ [x]) = max (qListMax ts) x := by
  cases ts with
  | nil => cases h rfl
  | cons a as => simp [qListMax, List.foldl_append]

theorem asmStep_arc (dts : List ℚ) (g0 : Nat) (mems0 : List MemberRow)
    (st : AsmState) (i : Nat) (label : Int)
    (h1 : g0 ≤ st.g)
    (h2 : ∀ m ∈ st.members, m.clusterId ≤ st.g)
    (h3 : ∀ p ∈ st.labelMap, g0 < p.2 ∧ p.2 ≤ st.g)
    (h4 : ∀ gid, gid ≤ g0 → memberDts dts st.members gid = memberDts dts mems0 gid)
    (h5 : ∀ gid, g0 < gid → gid ≤ st.g →
      memberDts dts st.members gid ≠ [] ∧
      lookupNat st.arcStarts gid = some (qListMin (memberDts dts st.members gid)) ∧
      lookupNat st.arcEnds gid = some (qListMax (memberDts dts st.members gid)))
    (h6 : ∀ gid, st.g < gid →
      lookupNat st.arcStarts gid = none ∧ lookupNat st.arcEnds gid = none ∧
      memberDts dts st.members gid = []) :
    g0 ≤ (asmStep dts st i label).g ∧
    (∀ m ∈ (asmStep dts st i label).members,
      m.clusterId ≤ (asmStep dts st i label).g) ∧
    (∀ p ∈ (asmStep dts st i label).labelMap,
      g0 < p.2 ∧ p.2 ≤ (asmStep dts st i label).g) ∧
    (∀ gid, gid ≤ g0 →
      memberDts dts (asmStep dts st i label).members gid =
        memberDts dts mems0 gid) ∧
    (∀ gid, g0 < gid → gid ≤ (asmStep dts st i label).g →
      memberDts dts (asmStep dts st i label).members gid ≠ [] ∧
      lookupNat (asmStep dts st i label).arcStarts gid =
        some (qListMin (memberDts dts (asmStep dts st i label).members gid)) ∧
      lookupNat (asmStep dts st i label).arcEnds gid =
        some (qListMax (memberDts dts (asmStep dts st i label).members gid))) ∧
    (∀ gid, (asmStep dts st i label).g < gid →
      lookupNat (asmStep dts st i label).arcStarts gid = none ∧
      lookupNat (asmStep dts st i label).arcEnds gid = none ∧
      memberDts dts (asmStep dts st i label).members gid = []) := by
  by_cases hneg : label < 0
  · rw [asmStep_neg dts st i label hneg]
    exact ⟨h1, h2, h3, h4, h5, h6⟩
  · cases hl : lookupLabel st.labelMap label with
    | some gid =>
      have hgid := h3 (label, gid) (lookupLabel_mem _ _ _ hl)
      obtain ⟨hne, hs, he⟩ := h5 gid hgid.1 hgid.2
      rw [asmStep_hit dts st i label gid hneg hl]
      dsimp only
      refine ⟨h1, ?_, h3, ?_, ?_, ?_⟩
      · intro m hm
        rcases List.mem_append.mp hm with hmo | hm1
        · exact h2 m hmo
        · have hm2 := List.mem_singleton.mp hm1
          subst hm2
          exact hgid.2
      · intro gid2 hle
        rw [memberDts_append]
        dsimp only
        rw [if_neg (by omega), List.append_nil]
        exact h4 gid2 hle
      · intro gid2 hlt hle
        by_cases heq : gid2 = gid
        · subst heq
          rw [memberDts_append]
          dsimp only
          rw [if_pos rfl]
          refine ⟨by simp, ?_, ?_⟩
          · rw [asmMinUpdate_some _ _ _ _ hs, qListMin_concat _ _ hne]
          · rw [asmMaxUpdate_some _ _ _ _ he, qListMax_concat _ _ hne]
        · rw [memberDts_append]
          dsimp only
          rw [if_neg (by omega : ¬gid = gid2), List.append_nil,
            asmMinUpdate_ne _ _ _ _ heq, asmMaxUpdate_ne _ _ _ _ heq]
          exact h5 gid2 hlt hle
      · intro gid2 hgt
        have hne2 : gid2 ≠ gid := by omega
        rw [memberDts_append]
        dsimp only
        rw [if_neg (by omega : ¬gid = gid2), List.append_nil,
          asmMinUpdate_ne _ _ _ _ hne2, asmMaxUpdate_ne _ _ _ _ hne2]
        exact h6 gid2 hgt
    | none =>
      rw [asmStep_new dts st i label hneg hl]
      dsimp only
      obtain ⟨hsn, hen, hmn⟩ := h6 (st.g + 1) (Nat.lt_succ_self _)
      refine ⟨by omega, ?_, ?_, ?_, ?_, ?_⟩
      · intro m hm
        rcases List.mem_append.mp hm with hmo | hm1
        · exact Nat.le_succ_of_le (h2 m hmo)
        · have hm2 := List.mem_singleton.mp hm1
          subst hm2
          exact le_refl _
      · intro p hp
        rcases List.mem_append.mp hp with hpo | hp1
        · exact ⟨(h3 p hpo).1, Nat.le_succ_of_le (h3 p hpo).2⟩
        · have hp2 := List.mem_singleton.mp hp1
          subst hp2
          exact ⟨by omega, le_refl _⟩
      · intro gid2 hle
        rw [memberDts_append]
        dsimp only
        rw [if_neg (by omega), List.append_nil]
        exact h4 gid2 hle
      · intro gid2 hlt hle
        by_cases heq : gid2 = st.g + 1
        · subst heq
          rw [memberDts_append]
          dsimp only
          rw [if_pos rfl, hmn, List.nil_append]
          refine ⟨by simp, ?_, ?_⟩
          · rw [asmMinUpdate_none _ _ _ hsn]
            rfl
          · rw [asmMaxUpdate_none _ _ _ hen]
            rfl
        · have hle2 : gid2 ≤ st.g := by omega
          rw [memberDts_append]
          dsimp only
          rw [if_neg (by omega), List.append_nil,
            asmMinUpdate_ne _ _ _ _ heq, asmMaxUpdate_ne _ _ _ _ heq]
          exact h5 gid2 hlt hle2
      · intro gid2 hgt
        have hne2 : gid2 ≠ st.g + 1 := by omega
        rw [memberDts_append]
        dsimp only
        rw [if_neg (by omega), List.append_nil,
          asmMinUpdate_ne _ _ _ _ hne2, asmMaxUpdate_ne _ _ _ _ hne2]
        exact h6 gid2 (by omega)

theorem processLabels_arc (dts : List ℚ) (g0 : Nat) (mems0 : List MemberRow) :
    ∀ (ls : List Int) (st : AsmState) (i : Nat),
    g0 ≤ st.g →
    (∀ m ∈ st.members, m.clusterId ≤ st.g) →
    (∀ p ∈ st.labelMap, g0 < p.2 ∧ p.2 ≤ st.g) →
    (∀ gid, gid ≤ g0 → memberDts dts st.members gid = memberDts dts mems0 gid) →
    (∀ gid, g0 < gid → gid ≤ st.g →
      memberDts dts st.members gid ≠ [] ∧
      lookupNat st.arcStarts gid = some (qListMin (memberDts dts st.members gid)) ∧
      lookupNat st.arcEnds gid = some (qListMax (memberDts dts st.members gid))) →
    (∀ gid, st.g < gid →
      lookupNat st.arcStarts gid = none ∧ lookupNat st.arcEnds gid = none ∧
      memberDts dts st.members gid = []) →
    g0 ≤ (processLabels dts st i ls).g ∧
    (∀ m ∈ (processLabels dts st i ls).members,
      m.clusterId ≤ (processLabels dts st i ls).g) ∧
    (∀ gid, gid ≤ g0 →
      memberDts dts (processLabels dts st i ls).members gid =
        memberDts dts mems0 gid) ∧
    (∀ gid, g0 < gid → gid ≤ (processLabels dts st i ls).g →
      memberDts dts (processLabels dts st i ls).members gid ≠ [] ∧
      lookupNat (processLabels dts st i ls).arcStarts gid =
        some (qListMin (memberDts dts (processLabels dts st i ls).members gid)) ∧
      lookupNat (processLabels dts st i ls).arcEnds gid =
        some (qListMax (memberDts dts (processLabels dts st i ls).members gid))) := by
  intro ls
  induction ls with
  | nil =>
    intro st i ha hb hc hd he hf
    rw [processLabels]
    exact ⟨ha, hb, hd, he⟩
  | cons l ls ih =>
    intro st i ha hb hc hd he hf
    rw [processLabels]
    obtain ⟨p1, p2, p3, p4, p5, p6⟩ :=
      asmStep_arc dts g0 mems0 st i l ha hb hc hd he hf
    exact ih (asmStep dts st i l) (i + 1) p1 p2 p3 p4 p5 p6

theorem processResult_arc (dts : List ℚ) (g0 : Nat) (mems : List MemberRow)
    (r : GridSearchResult) (hm : ∀ m ∈ mems, m.clusterId ≤ g0) :
    g0 ≤ (processResult dts g0 mems r).1 ∧
    (∀ m ∈ (processResult dts g0 mems r).2.2,
      m.clusterId ≤ (processResult dts g0 mems r).1) ∧
    (∀ gid, gid ≤ g0 →
      memberDts dts (processResult dts g0 mems r).2.2 gid =
        memberDts dts mems gid) ∧
    (∀ row ∈ (processResult dts g0 mems r).2.1,
      g0 < row.clusterId ∧ row.clusterId ≤ (processResult dts g0 mems r).1 ∧
      memberDts dts (processResult dts g0 mems r).2.2 row.clusterId ≠ [] ∧
      row.arcLength =
        qListMax (memberDts dts (processResult dts g0 mems r).2.2 row.clusterId) -
        qListMin (memberDts dts (processResult dts g0 mems r).2.2 row.clusterId)) := by
  have hmemInit : ∀ m ∈ mems, m.clusterId ≤ g0 := hm
  have harc := processLabels_arc dts g0 mems r.clusterLabels
    ⟨g0, [], [], [], [], mems⟩ 0 (le_refl _) hm (by intro p hp; cases hp)
    (fun gid hle => rfl)
    (fun gid hlt hle => absurd (lt_of_lt_of_le hlt hle) (lt_irrefl g0))
    (fun gid hgt => ⟨rfl, rfl, memberDts_high dts mems gid g0 hm hgt⟩)
  have hids := processLabels_ids dts r.clusterLabels
    ⟨g0, [], [], [], [], mems⟩ 0 g0 (le_refl _) (by simp)
  unfold processResult
  refine ⟨harc.1, harc.2.1, harc.2.2.1, ?_⟩
  intro row hrow
  obtain ⟨gid, hgidmem, hroweq⟩ := List.mem_map.mp hrow
  rw [hids.2] at hgidmem
  have hbounds := List.mem_range'_1.mp hgidmem
  have hgid1 : g0 < gid := by omega
  have hgid2 : gid ≤ (processLabels dts ⟨g0, [], [], [], [], mems⟩ 0 r.clusterLabels).g := by
    have h2b := hbounds.2
    have h1b := (processLabels_ids dts r.clusterLabels ⟨g0, [], [], [], [], mems⟩ 0 g0
      (le_refl _) (by simp)).1
    omega
  obtain ⟨hne, hs, he⟩ := harc.2.2.2 gid hgid1 hgid2
  subst hroweq
  refine ⟨hgid1, hgid2, hne, ?_⟩
  show (lookupNat (processLabels dts ⟨g0, [], [], [], [], mems⟩ 0 r.clusterLabels).arcEnds gid).getD 0 -
      (lookupNat (processLabels dts ⟨g0, [], [], [], [], mems⟩ 0 r.clusterLabels).arcStarts gid).getD 0 =
    qListMax (memberDts dts (processLabels dts ⟨g0, [], [], [], [], mems⟩ 0 r.clusterLabels).members gid) -
    qListMin (memberDts dts (processLabels dts ⟨g0, [], [], [], [], mems⟩ 0 r.clusterLabels).members gid)
  rw [hs, he]
  rfl

theorem assembleGo_arc (dts : List ℚ) :
    ∀ (rs : List GridSearchResult) (g : Nat) (rows : List ClusterRow)
      (mems : List MemberRow),
    (∀ m ∈ mems, m.clusterId ≤ g) →
    (∀ row ∈ rows, row.clusterId ≤ g ∧
      memberDts dts mems row.clusterId ≠ [] ∧
      row.arcLength = qListMax (memberDts dts mems row.clusterId) -
        qListMin (memberDts dts mems row.clusterId)) →
    ∀ row ∈ (assembleGo dts g rows mems rs).2.1,
      memberDts dts (assembleGo dts g rows mems rs).2.2 row.clusterId ≠ [] ∧
      row.arcLength =
        qListMax (memberDts dts (assembleGo dts g rows mems rs).2.2 row.clusterId) -
        qListMin (memberDts dts (assembleGo dts g rows mems rs).2.2 row.clusterId) := by
  intro rs
  induction rs with
  | nil =>
    intro g rows mems hm hr row hrow
    rw [assembleGo] at hrow ⊢
    exact ⟨(hr row hrow).2.1, (hr row hrow).2.2⟩
  | cons r rs ih =>
    intro g rows mems hm hr
    rw [assembleGo]
    obtain ⟨hle, hm2, hstable, hnew⟩ := processResult_arc dts g mems r hm
    apply ih
    · exact hm2
    · intro row hrow
      rcases List.mem_append.mp hrow with hold | hnewr
      · obtain ⟨hb, hne, harc⟩ := hr row hold
        have hstab := hstable row.clusterId hb
        exact ⟨by omega, by rw [hstab]; exact hne, by rw [hstab]; exact harc⟩
      · obtain ⟨hgt, hble, hne, harc⟩ := hnew row hnewr
        exact ⟨hble, hne, harc⟩

/-- C6: every row of the cluster summary table has
`arc_length = max(t) - min(t)` over the `dts` values of exactly the
observations listed for that cluster in the members table (which are
nonempty). -/
theorem assembler_arc_length (dts : List ℚ) (results : List GridSearchResult)
    (row : ClusterRow) (hrow : row ∈ (assemble dts results).2.1) :
    memberDts dts (assemble dts results).2.2 row.clusterId ≠ [] ∧
    row.arcLength =
      qListMax (memberDts dts (assemble dts results).2.2 row.clusterId) -
      qListMin (memberDts dts (assemble dts results).2.2 row.clusterId) := by
  unfold assemble at hrow ⊢
  exact assembleGo_arc dts results 0 [] [] (by intro m hm; cases hm)
    (by intro r hr; cases hr) row hrow

/-- Witness for C6 on a concrete two-observation input: one result with
labels `[5, 5]` makes one cluster with id 1, members `{0, 1}`, and
`arc_length = 3 - 0`. -/
theorem assembler_arc_length_witness :
    (⟨1, 1, 2, 3⟩ : ClusterRow) ∈
      (assemble [0, 3] [⟨1, 2, [5, 5]⟩]).2.1 ∧
    (⟨1, 1, 2, 3⟩ : ClusterRow).arcLength =
      qListMax (memberDts [0, 3] (assemble [0, 3] [⟨1, 2, [5, 5]⟩]).2.2 1) -
      qListMin (memberDts [0, 3] (assemble [0, 3] [⟨1, 2, [5, 5]⟩]).2.2 1) := by
  have hrow : (⟨1, 1, 2, 3⟩ : ClusterRow) ∈
      (assemble [0, 3] [⟨1, 2, [5, 5]⟩]).2.1 := by
    norm_num [assemble, assembleGo, processResult, processLabels, asmStep,
      lookupLabel, asmMinUpdate, asmMaxUpdate, lookupNat, setEntry]
  exact ⟨hrow, (assembler_arc_length [0, 3] [⟨1, 2, [5, 5]⟩] ⟨1, 1, 2, 3⟩ hrow).2⟩

end ThorCluster
